import Mathlib

/-!
Verification development for the DataScrub Pro cleaning engine
(src/utils/cleaningEngine.ts).  The TypeScript source is shallowly embedded:
strings are Lean `String`s (lists of characters), JavaScript regular-expression
operations are spelled out as executable character-list functions, and the one
floating-point computation that matters (`values.length * 0.7` in
detectColumnTypes) is modelled exactly as an IEEE-754 double-precision product
scaled to an integer.
-/

namespace DataScrub

/-! ## JavaScript string primitives -/

/-- Characters matched by JavaScript's `\s` class and trimmed by
`String.prototype.trim`: ASCII whitespace, NBSP, the Unicode space separators,
the line separators and the BOM. -/
def isJsSpace (c : Char) : Bool :=
  c ∈ ['\x20', '\t', '\n', '\r', '\x0b', '\x0c', '\u00A0', '\u1680',
       '\u2000', '\u2001', '\u2002', '\u2003', '\u2004', '\u2005', '\u2006',
       '\u2007', '\u2008', '\u2009', '\u200A', '\u2028', '\u2029', '\u202F',
       '\u205F', '\u3000', '\uFEFF']

/-- Drops trailing JavaScript whitespace from a character list. -/
def trimEndJs (cs : List Char) : List Char :=
  (cs.reverse.dropWhile isJsSpace).reverse

/-- `String.prototype.trim` on a character list. -/
def jsTrimL (cs : List Char) : List Char :=
  trimEndJs (cs.dropWhile isJsSpace)

/-- `String.prototype.trim`. -/
def jsTrim (s : String) : String := ⟨jsTrimL s.data⟩

/-! ## Row parser (`parseCSVLine`, cleaningEngine.ts lines 251-297) -/

/-- The end-of-cell handling of `parseCSVLine`: the accumulated cell text is
trimmed, and if the trimmed form is itself quote-wrapped the wrapping quotes
are stripped (`trimmed.startsWith('"') && trimmed.endsWith('"')` followed by
`slice(1, -1)`). -/
def finalizeCell (cell : List Char) : List Char :=
  let t := jsTrimL cell
  if t.headD ' ' = '"' ∧ t.getLastD ' ' = '"' then (t.drop 1).dropLast else t

/-- The character-scanning state machine of `parseCSVLine`.  State: whether the
scanner is inside quotes, and the cell accumulated so far.  A `"` inside quotes
followed by another `"` emits one literal `"` and consumes both characters
(`i += 2` in the source); a lone `"` toggles the quote state; the separator
outside quotes completes the current cell. -/
def parseAux (sep : Char) (inQuotes : Bool) (cell : List Char) :
    List Char → List (List Char)
  | [] => [finalizeCell cell]
  | c :: rest =>
    if inQuotes then
      if c = '"' ∧ rest.headD ' ' = '"' then parseAux sep true (cell ++ ['"']) rest.tail
      else if c = '"' then parseAux sep false cell rest
      else parseAux sep true (cell ++ [c]) rest
    else
      if c = '"' then parseAux sep true cell rest
      else if c = sep then finalizeCell cell :: parseAux sep false [] rest
      else parseAux sep false (cell ++ [c]) rest
  termination_by cs => cs.length
  decreasing_by
    all_goals simp only [List.length_cons, List.length_tail]
    all_goals omega

/-- `parseCSVLine(line, sep)`: tokenizes one logical line into cell values. -/
def parseCSVLine (line : String) (sep : Char) : List String :=
  (parseAux sep false [] line.data).map fun cs => ⟨cs⟩

/-! ## Cell quoting (`quoteCell`, lines 309-316) -/

/-- The condition under which `quoteCell` wraps a value in quotes. -/
def needsQuote (cs : List Char) : Bool :=
  cs.any fun c => c ∈ [',', '"', '\n', '\r']

/-- `str.replace(/"/g, '""')`. -/
def doubleQuotes : List Char → List Char
  | [] => []
  | c :: rest => (if c = '"' then ['"', '"'] else [c]) ++ doubleQuotes rest

/-- `quoteCell`: wraps the value in double quotes, doubling embedded quotes,
whenever it contains a comma, quote, newline or carriage return. -/
def quoteCell (s : String) : String :=
  if needsQuote s.data then ⟨'"' :: (doubleQuotes s.data ++ ['"'])⟩ else s

/-! ## Separator detection (`detectSeparator`, lines 299-307) -/

/-- Candidate delimiters in the insertion order of the `counts` object. -/
def sepCandidates : List Char := [',', '\t', ';', '|']

/-- `detectSeparator`: counts each candidate's occurrences in the header line
and returns the head of the stable descending sort of the candidates by count.
(JavaScript's `Array.prototype.sort` is stable, so that head is the first
candidate, in insertion order, attaining the maximum count; the fold below
keeps the current best unless a strictly larger count appears, which computes
exactly that element.) -/
def detectSeparator (line : String) : Char :=
  sepCandidates.foldl
    (fun best c => if line.data.count c > line.data.count best then c else best) ','

/-! ## Generic string helpers for the transform library -/

/-- `toLowerCase` on the ASCII range (the engine's column names are sanitized
to `[a-z0-9_]` and its gating data is ASCII). -/
def asciiLower (c : Char) : Char :=
  if 'A' ≤ c ∧ c ≤ 'Z' then Char.ofNat (c.toNat + 32) else c

/-- `toUpperCase` on the ASCII range. -/
def asciiUpper (c : Char) : Char :=
  if 'a' ≤ c ∧ c ≤ 'z' then Char.ofNat (c.toNat - 32) else c

/-- `String.prototype.includes` / an unanchored regex literal: substring test. -/
def containsSubL (needle : List Char) : List Char → Bool
  | [] => needle.isEmpty
  | c :: s => needle.isPrefixOf (c :: s) || containsSubL needle s

/-- Fuel-driven scanner for `replaceAllL`; with fuel at least the input
length the fuel-exhausted arm is never reached, because every step consumes at
least one character. -/
def replaceAllGo (p r : List Char) : ℕ → List Char → List Char
  | _, [] => []
  | 0, cs => cs
  | fuel + 1, c :: s =>
    if p ≠ [] ∧ p.isPrefixOf (c :: s) then
      r ++ replaceAllGo p r fuel ((c :: s).drop p.length)
    else c :: replaceAllGo p r fuel s

/-- Global case-sensitive replacement of a nonempty pattern, leftmost and
non-overlapping — the semantics of `str.split(pat).join(rep)` and of a global
regex replace on a literal pattern.  (An empty pattern is treated as a no-op;
all call sites pass nonempty patterns.) -/
def replaceAllL (p r cs : List Char) : List Char := replaceAllGo p r cs.length cs

/-- Replacement of only the first occurrence of a nonempty pattern
(`String.prototype.replace` with a string pattern). -/
def replaceFirstL (p r : List Char) : List Char → List Char
  | [] => []
  | c :: s =>
    if p ≠ [] ∧ p.isPrefixOf (c :: s) then r ++ (c :: s).drop p.length
    else c :: replaceFirstL p r s

/-- Case-insensitive prefix test against an already-lower-case pattern. -/
def ciPrefix : List Char → List Char → Bool
  | [], _ => true
  | _ :: _, [] => false
  | p :: ps, c :: cs => (asciiLower c = p) && ciPrefix ps cs

/-- Fuel-driven scanner for `replaceAllCI`; with fuel at least the input
length the fuel-exhausted arm is never reached. -/
def replaceAllCIGo (p r : List Char) : ℕ → List Char → List Char
  | _, [] => []
  | 0, cs => cs
  | fuel + 1, c :: s =>
    if p ≠ [] ∧ ciPrefix p (c :: s) then
      r ++ replaceAllCIGo p r fuel ((c :: s).drop p.length)
    else c :: replaceAllCIGo p r fuel s

/-- Global case-insensitive replacement of a nonempty lower-case pattern
(a `/pat/gi` regex replace). -/
def replaceAllCI (p r cs : List Char) : List Char := replaceAllCIGo p r cs.length cs

/-- Splits a character list at every occurrence of a separator character
(`String.prototype.split` with a single-character separator). -/
def splitChar (sep : Char) : List Char → List (List Char)
  | [] => [[]]
  | c :: s =>
    if c = sep then [] :: splitChar sep s
    else
      match splitChar sep s with
      | [] => [[c]]
      | p :: ps => (c :: p) :: ps

/-- Numeric value of a digit string (`parseInt(v, 10)` on a `^-?\d+$`-shaped
string, sign handled by the caller; exact, which matches the host for all
magnitudes below 2^53). -/
def natOfDigits (cs : List Char) : ℕ :=
  cs.foldl (fun n c => n * 10 + (c.toNat - 48)) 0

/-! ## Cell transform library (cleaningEngine.ts lines 330-487) -/

/-- `looksLikeEmail` (line 330): nonempty, contains `@`, longer than 5. -/
def looksLikeEmail (s : String) : Bool :=
  s ≠ "" && s.data.contains '@' && s.data.length > 5

/-- The domain typo-correction table of `fixEmail`. -/
def domainFixes : List (String × String) :=
  [("gmial.com", "gmail.com"), ("gmai.com", "gmail.com"),
   ("gamil.com", "gmail.com"), ("gnail.com", "gmail.com"),
   ("gmail.co", "gmail.com"), ("gmail.con", "gmail.com"),
   ("yahooo.com", "yahoo.com"), ("yahoo.con", "yahoo.com"),
   ("hotmial.com", "hotmail.com"), ("hotmail.con", "hotmail.com"),
   ("outlok.com", "outlook.com"), ("outlook.con", "outlook.com")]

/-- Collapses every run of the given character to a single occurrence
(`replace(/,,+/g, ',')` and `replace(/\.+/g, '.')` both have this effect). -/
def collapseRuns (t : Char) : List Char → List Char
  | [] => []
  | [c] => [c]
  | c :: c2 :: s =>
    if c = t ∧ c2 = t then collapseRuns t (c2 :: s)
    else c :: collapseRuns t (c2 :: s)

/-- A character legal on either side of the `@` in the validation regex
`^[^\s@]+@[^\s@]+\.[^\s@]+$`. -/
def okEmailChar (c : Char) : Bool := !isJsSpace c && c ≠ '@'

/-- The final-shape validation of `fixEmail`: the regex
`^[^\s@]+@[^\s@]+\.[^\s@]+$` matches exactly when the text splits at its one
`@` into a nonempty local part and a domain, each free of whitespace and `@`,
the domain containing a `.` that is neither its first nor its last character. -/
def emailShapeOk (cs : List Char) : Bool :=
  let loc := cs.takeWhile (· ≠ '@')
  match cs.dropWhile (· ≠ '@') with
  | '@' :: dom =>
    !loc.isEmpty && loc.all okEmailChar && dom.all okEmailChar &&
      ((dom.drop 1).dropLast.contains '.')
  | _ => false

/-- `fixEmail` (lines 334-353): lower-case, strip whitespace, collapse comma
and dot runs, rewrite a known typo domain suffix, and return the result only
when it passes the shape validation — otherwise the original value. -/
def fixEmail (email : String) : String :=
  if email = "" then email
  else
    let f0 := jsTrimL (email.data.map asciiLower)
    let f1 := f0.filter fun c => !isJsSpace c
    let f2 := collapseRuns ',' f1
    let f3 := collapseRuns '.' f2
    let fixed :=
      match domainFixes.find? (fun pr => ('@' :: pr.1.data).isSuffixOf f3) with
      | some pr => replaceFirstL ('@' :: pr.1.data) ('@' :: pr.2.data) f3
      | none => f3
    if emailShapeOk fixed then ⟨fixed⟩ else email

/-- `looksLikePhone` (lines 355-367): after removing digits, whitespace and
phone punctuation nothing may remain, and the digit count must be 7-15. -/
def looksLikePhone (s : String) : Bool :=
  if s = "" then false
  else
    let trimmed := jsTrimL s.data
    let stripped := trimmed.filter fun c =>
      !(c.isDigit || isJsSpace c || c ∈ ['+', '-', '.', '(', ')'])
    let digits := trimmed.filter Char.isDigit
    stripped.isEmpty && decide (7 ≤ digits.length) && decide (digits.length ≤ 15)

/-- The column-name alternation of `isPhoneColumnName` (line 372). -/
def phoneNamePats : List String :=
  ["phone", "mobile", "cell", "fax", "tel", "contact_no", "contact_num", "whatsapp"]

/-- `isPhoneColumnName`: the unanchored case-insensitive regex
`/phone|mobile|cell|fax|tel|contact_no|contact_num|whatsapp/i` — true exactly
when one of the alternatives occurs in the lower-cased column name. -/
def isPhoneColumnName (colName : String) : Bool :=
  phoneNamePats.any fun p => containsSubL p.data (colName.data.map asciiLower)

/-- `standardizePhoneFn` (lines 376-387): formats by digit count
(10 / 11-leading-1 / at least 11), otherwise returns the value unchanged. -/
def standardizePhoneFn (phone : String) : String :=
  if phone = "" then phone
  else
    let ds := phone.data.filter Char.isDigit
    if ds.length = 10 then
      ⟨'(' :: ds.take 3 ++ [')', ' '] ++ (ds.drop 3).take 3 ++ '-' :: ds.drop 6⟩
    else if ds.length = 11 ∧ ds.headD ' ' = '1' then
      ⟨'+' :: '1' :: ' ' :: '(' :: (ds.drop 1).take 3 ++ [')', ' '] ++
        (ds.drop 4).take 3 ++ '-' :: ds.drop 7⟩
    else if 11 ≤ ds.length then
      let cc := ds.take (ds.length - 10)
      let rest := ds.drop (ds.length - 10)
      ⟨'+' :: cc ++ ' ' :: '(' :: rest.take 3 ++ [')', ' '] ++
        (rest.drop 3).take 3 ++ '-' :: rest.drop 6⟩
    else phone

/-! ## Date detection and normalization (lines 389-431) -/

def isAsciiLetter (c : Char) : Bool :=
  ('A' ≤ c && c ≤ 'Z') || ('a' ≤ c && c ≤ 'z')

/-- A run of digits whose length lies in `[lo, hi]` (`\d{lo,hi}` on a whole
group). -/
def digitRun (lo hi : ℕ) (cs : List Char) : Bool :=
  cs.all Char.isDigit && decide (lo ≤ cs.length) && decide (cs.length ≤ hi)

/-- `^\d{4}SEP\d{1,2}SEP\d{1,2}$` for a fixed separator. -/
def ymdNumPat (sep : Char) (cs : List Char) : Bool :=
  match splitChar sep cs with
  | [a, b, c] => digitRun 4 4 a && digitRun 1 2 b && digitRun 1 2 c
  | _ => false

/-- `^\d{1,2}SEP\d{1,2}SEP\d{4}$` for a fixed separator. -/
def dmyNumPat (sep : Char) (cs : List Char) : Bool :=
  match splitChar sep cs with
  | [a, b, c] => digitRun 1 2 a && digitRun 1 2 b && digitRun 4 4 c
  | _ => false

/-- `^[A-Za-z]+ \d{1,2},? \d{4}$`. -/
def monthNamePat (cs : List Char) : Bool :=
  match splitChar ' ' cs with
  | [w, dTok, y] =>
    !w.isEmpty && w.all isAsciiLetter &&
      (digitRun 1 2 dTok || (dTok.getLastD ' ' == ',' && digitRun 1 2 dTok.dropLast)) &&
      digitRun 4 4 y
  | _ => false

/-- `^\d{1,2} [A-Za-z]+ \d{4}$`. -/
def dayMonthNamePat (cs : List Char) : Bool :=
  match splitChar ' ' cs with
  | [d, w, y] => digitRun 1 2 d && !w.isEmpty && w.all isAsciiLetter && digitRun 4 4 y
  | _ => false

/-- The eight date patterns of `isValidDate`, in source order. -/
def matchesDatePattern (cs : List Char) : Bool :=
  ymdNumPat '-' cs || dmyNumPat '/' cs || dmyNumPat '-' cs || ymdNumPat '/' cs ||
    dmyNumPat '.' cs || ymdNumPat '.' cs || monthNamePat cs || dayMonthNamePat cs

def isLeapYear (y : ℕ) : Bool :=
  (y % 4 == 0 && y % 100 != 0) || y % 400 == 0

def daysInMonth (y m : ℕ) : ℕ :=
  if m = 2 then (if isLeapYear y then 29 else 28)
  else if m ∈ [4, 6, 9, 11] then 30
  else 31

/-- Calendar validity of a parsed (year, month, day) triple: the host `Date`
constructor accepts it without rollover exactly under these bounds. -/
def dateCheck (y m d : ℕ) : Option (ℕ × ℕ × ℕ) :=
  if 1 ≤ m ∧ m ≤ 12 ∧ 1 ≤ d ∧ d ≤ daysInMonth y m then some (y, m, d) else none

/-- One attempt of the numeric date parse at a fixed separator: three all-digit
fields, read year-first when the first field has four digits and month-first
(US order) when the last one does. -/
def tryParseYMD (sep : Char) (cs : List Char) : Option (ℕ × ℕ × ℕ) :=
  match splitChar sep cs with
  | [a, b, c] =>
    if !a.isEmpty && !b.isEmpty && !c.isEmpty &&
        a.all Char.isDigit && b.all Char.isDigit && c.all Char.isDigit then
      if a.length = 4 then dateCheck (natOfDigits a) (natOfDigits b) (natOfDigits c)
      else if c.length = 4 then dateCheck (natOfDigits c) (natOfDigits a) (natOfDigits b)
      else none
    else none
  | _ => none

/-- Models the host JavaScript `Date` parser on the numeric shapes the eight
patterns of `isValidDate` admit: three all-digit fields joined by one of
`-`, `/` or `.`.  The model is strict about calendar validity (no day
rollover) and time-zone free: the parsed calendar day itself is returned.
Month-name forms are outside the model and yield `none`; no theorem below
evaluates the date functions on such inputs. -/
def jsDateYMD (cs : List Char) : Option (ℕ × ℕ × ℕ) :=
  ((tryParseYMD '-' cs).orElse fun _ =>
    (tryParseYMD '/' cs).orElse fun _ => tryParseYMD '.' cs)

/-- `isValidDate` (lines 389-408): length in `[6, 30]`, not a purely numeric
string longer than 8 digits, some pattern matches the trimmed value, and the
parsed date has a year in `[1900, 2100]`.  (In the source the pattern loop
returns on the first pattern that matches with a parseable date; the eight
patterns are mutually exclusive on any one string, so testing "some pattern
matches" is equivalent.) -/
def isValidDate (s : String) : Bool :=
  if s = "" ∨ s.data.length < 6 ∨ 30 < s.data.length then false
  else if s.data.all Char.isDigit ∧ 8 < s.data.length then false
  else if matchesDatePattern (jsTrimL s.data) then
    match jsDateYMD s.data with
    | some (y, _, _) => decide (1900 ≤ y) && decide (y ≤ 2100)
    | none => false
  else false

def isDateSep (c : Char) : Bool := c ∈ ['/', '-', '.']

/-- The anchored match `^(\d{1,2})[\/\-\.](\d{1,2})[\/\-\.](\d{4})$` of
`standardizeDateFn` (separators may differ between the two positions);
returns (day digits value, month digits value, the four year characters). -/
def ddmmyyyyParts (cs : List Char) : Option (ℕ × ℕ × List Char) :=
  let ds1 := cs.takeWhile Char.isDigit
  match cs.dropWhile Char.isDigit with
  | s1 :: rest1 =>
    if isDateSep s1 && digitRun 1 2 ds1 then
      let ds2 := rest1.takeWhile Char.isDigit
      match rest1.dropWhile Char.isDigit with
      | s2 :: rest2 =>
        if isDateSep s2 && digitRun 1 2 ds2 && digitRun 4 4 rest2 then
          some (natOfDigits ds1, natOfDigits ds2, rest2)
        else none
      | [] => none
    else none
  | [] => none

/-- Fuel-driven decimal printing of a natural number — `String(n)` for the
template literals of `standardizeDate`; with fuel above the number every
recursive step strictly decreases it, so the zero-fuel arm is unreachable. -/
def natToDecGo : ℕ → ℕ → List Char
  | 0, _ => []
  | fuel + 1, n =>
    if n < 10 then [Char.ofNat (48 + n)]
    else natToDecGo fuel (n / 10) ++ [Char.ofNat (48 + n % 10)]

/-- Decimal printing, `String(n)`. -/
def natToDec (n : ℕ) : List Char := natToDecGo (n + 1) n

/-- `String(n).padStart(2, '0')`. -/
def pad2 (n : ℕ) : List Char :=
  if n < 10 then '0' :: natToDec n else natToDec n

/-- `standardizeDateFn` (lines 410-431): an ambiguous `D/M/Y`-shaped value with
day > 12 and month ≤ 12 is rewritten day-last directly; otherwise the value is
re-parsed by the host date parser and printed as `YYYY-MM-DD` when the year is
in `[1900, 2100]`; in every other case the value is returned unchanged. -/
def standardizeDateFn (dateStr : String) : String :=
  if dateStr = "" then dateStr
  else
    let fallback : String :=
      match jsDateYMD dateStr.data with
      | some (y, m, d) =>
        if 1900 ≤ y ∧ y ≤ 2100 then ⟨natToDec y ++ '-' :: pad2 m ++ '-' :: pad2 d⟩
        else dateStr
      | none => dateStr
    match ddmmyyyyParts dateStr.data with
    | some (d, m, y) =>
      if 12 < d ∧ m ≤ 12 then ⟨y ++ '-' :: pad2 m ++ '-' :: pad2 d⟩
      else fallback
    | none => fallback

/-! ## Case normalization (`normalizeCaseFn`, lines 433-445) -/

/-- The full expansion of the anchored alternation
`^(first|last|middle|full)?_?name$|^city$|^country$|^state$|^street$|^address$`
(the prefix and the underscore are each optional). -/
def nameColTokens : List String :=
  ["name", "_name", "firstname", "first_name", "lastname", "last_name",
   "middlename", "middle_name", "fullname", "full_name",
   "city", "country", "state", "street", "address"]

mutual

/-- The word tokenizer `split(/(\s+)/)`: alternating non-whitespace and
whitespace tokens, the separators included, with (possibly empty) non-space
tokens at both ends. `splitWsAcc` carries the reversed current word. -/
def splitWsAcc (acc : List Char) : List Char → List (List Char)
  | [] => [acc.reverse]
  | c :: s =>
    if isJsSpace c then acc.reverse :: splitSpAcc [c] s
    else splitWsAcc (c :: acc) s

/-- Companion of `splitWsAcc` carrying the reversed current whitespace run. -/
def splitSpAcc (sp : List Char) : List Char → List (List Char)
  | [] => [sp.reverse, []]
  | c :: s =>
    if isJsSpace c then splitSpAcc (c :: sp) s
    else sp.reverse :: splitWsAcc [c] s

end

/-- `split(/(\s+)/)` on a character list. -/
def splitWsL (cs : List Char) : List (List Char) := splitWsAcc [] cs

/-- One token of the title-casing map: whitespace tokens pass through, word
tokens get an upper-cased first character and lower-cased remainder. -/
def titleWord (w : List Char) : List Char :=
  if jsTrimL w = [] then w
  else
    match w with
    | [] => []
    | c :: rest => asciiUpper c :: rest.map asciiLower

/-- `normalizeCaseFn` (lines 433-445): email/URL-named columns are lower-cased,
name/address-like columns are title-cased word by word, everything else passes
through. -/
def normalizeCaseFn (s : String) (columnName : String) : String :=
  if s = "" then s
  else
    let lower := columnName.data.map asciiLower
    if containsSubL "email".data lower || containsSubL "e_mail".data lower then
      ⟨s.data.map asciiLower⟩
    else if containsSubL "url".data lower || containsSubL "website".data lower ||
        containsSubL "href".data lower || containsSubL "link".data lower then
      ⟨s.data.map asciiLower⟩
    else if nameColTokens.any (fun t => t.data = lower) then
      ⟨((splitWsL s.data).map titleWord).flatten⟩
    else s

/-! ## Control characters, HTML, number formats, encoding (lines 447-487) -/

/-- The character class `[\x00-\x08\x0B\x0C\x0E-\x1F\x7F]`. -/
def isControlStripped (c : Char) : Bool :=
  c.toNat ≤ 0x08 || c.toNat = 0x0b || c.toNat = 0x0c ||
    (0x0e ≤ c.toNat && c.toNat ≤ 0x1f) || c.toNat = 0x7f

/-- `removeSpecialCharsFn`: strips ASCII control characters other than tab,
newline and carriage return. -/
def removeSpecialCharsFn (s : String) : String :=
  if s = "" then s else ⟨s.data.filter fun c => !isControlStripped c⟩

/-- Drops characters up to and including the first `>`, reporting the
remainder, or `none` when no `>` occurs. -/
def dropThroughGt : List Char → Option (List Char)
  | [] => none
  | '>' :: rest => some rest
  | _ :: rest => dropThroughGt rest

/-- Fuel-driven scanner for `stripTags`; with fuel at least the input length
the fuel-exhausted arm is never reached, because dropping through a `>`
consumes at least one character. -/
def stripTagsGo : ℕ → List Char → List Char
  | _, [] => []
  | 0, cs => cs
  | fuel + 1, c :: rest =>
    if c = '<' then
      match dropThroughGt rest with
      | some after => stripTagsGo fuel after
      | none => c :: stripTagsGo fuel rest
    else c :: stripTagsGo fuel rest

/-- The global replace of `<[^>]*>`: each `<` starts a span running through the
first subsequent `>`; a `<` with no later `>` is kept. -/
def stripTags (cs : List Char) : List Char := stripTagsGo cs.length cs

/-- The guard regex `/<[^>]+>/` (line 820): a `<` followed by at least one
non-`>` character and then a `>`. -/
def hasTagPlus : List Char → Bool
  | [] => false
  | c :: rest =>
    (c == '<' && rest.headD ' ' != '>' && !rest.isEmpty && (dropThroughGt rest).isSome) ||
      hasTagPlus rest

/-- `removeHtmlTagsFn` (lines 452-459): strips `<...>` spans, then decodes the
six named entities case-insensitively, in source order. -/
def removeHtmlTagsFn (s : String) : String :=
  if s = "" then s
  else
    let t0 := stripTags s.data
    let t1 := replaceAllCI "&nbsp;".data [' '] t0
    let t2 := replaceAllCI "&amp;".data ['&'] t1
    let t3 := replaceAllCI "&lt;".data ['<'] t2
    let t4 := replaceAllCI "&gt;".data ['>'] t3
    let t5 := replaceAllCI "&quot;".data ['"'] t4
    let t6 := replaceAllCI "&#039;".data ['\''] t5
    ⟨t6⟩

/-- The currency characters `[$€£¥₹]` stripped by `fixNumberFormat`. -/
def currencySyms : List Char := ['$', '\u20AC', '\u00A3', '\u00A5', '\u20B9']

/-- `^\d{1,3}(,\d{3})+(\.\d+)?$`, decided on the comma-split groups: a leading
group of 1-3 digits, at least one further group, every middle group exactly 3
digits, and a final group of 3 digits optionally followed by `.` and digits. -/
def thousandsPat (cs : List Char) : Bool :=
  match splitChar ',' cs with
  | g :: gs =>
    digitRun 1 3 g && !gs.isEmpty &&
      gs.dropLast.all (fun p => digitRun 3 3 p) &&
      (match gs.getLast? with
       | some lastG =>
         digitRun 3 3 lastG ||
           (match splitChar '.' lastG with
            | [ip, fp] => digitRun 3 3 ip && !fp.isEmpty && fp.all Char.isDigit
            | _ => false)
       | none => false)
  | [] => false

/-- `fixNumberFormat` (lines 461-466): strips currency symbols and trims; when
the remainder is a thousands-grouped number the grouping commas are removed,
otherwise the original value is returned. -/
def fixNumberFormat (s : String) : String :=
  if s = "" then s
  else
    let cleaned := jsTrimL (s.data.filter fun c => !(c ∈ currencySyms))
    if thousandsPat cleaned then ⟨cleaned.filter (· ≠ ',')⟩ else s

/-- The mojibake replacement table of `fixEncodingIssues` (lines 470-481), in
source order. -/
def encodingFixes : List (List Char × List Char) :=
  [(['\u00C3', '\u00A9'], ['\u00E9']), (['\u00C3', '\u00A8'], ['\u00E8']),
   (['\u00C3', '\u00A0'], ['\u00E0']), (['\u00C3', '\u00A2'], ['\u00E2']),
   (['\u00C3', '\u00AE'], ['\u00EE']), (['\u00C3', '\u00B4'], ['\u00F4']),
   (['\u00C3', '\u00BB'], ['\u00FB']), (['\u00C3', '\u00A7'], ['\u00E7']),
   (['\u00C3', '\u00BC'], ['\u00FC']), (['\u00C3', '\u00B6'], ['\u00F6']),
   (['\u00C3', '\u00A4'], ['\u00E4']), (['\u00C3', '\u00B1'], ['\u00F1']),
   (['\u00E2', '\u0080', '\u0099'], ['\'']),
   (['\u00E2', '\u0080', '\u009C'], ['"']),
   (['\u00E2', '\u0080', '\u009D'], ['"']),
   (['\u00E2', '\u0080', '\u0094'], ['\u2014']),
   (['\u00E2', '\u0080', '\u0093'], ['\u2013']),
   (['\u00E2', '\u0080', '\u00A6'], ['\u2026']),
   (['\u00C2', '\u00A0'], [' ']), (['\u00C2', '\u00B0'], ['\u00B0'])]

/-- `str.replace(/^﻿/, '')`. -/
def stripLeadingBom : List Char → List Char
  | '\uFEFF' :: rest => rest
  | cs => cs

/-- `fixEncodingIssues` (lines 468-487): applies the mojibake table in order
(each entry via `split(bad).join(good)`, guarded by an `includes` test that
only skips work), then strips a leading BOM artifact. -/
def fixEncodingIssues (s : String) : String :=
  if s = "" then s
  else
    let r := encodingFixes.foldl
      (fun acc pr => if containsSubL pr.1 acc then replaceAllL pr.1 pr.2 acc else acc)
      s.data
    ⟨stripLeadingBom r⟩

/-! ## Whitespace collapse and null normalization (processFile lines 798-809) -/

/-- `(c || '').replace(/\s+/g, ' ').trim()` — the `trimWhitespace` map. -/
def wsCollapse : List Char → List Char
  | [] => []
  | [c] => if isJsSpace c then [' '] else [c]
  | c :: c2 :: s =>
    if isJsSpace c ∧ isJsSpace c2 then wsCollapse (c2 :: s)
    else (if isJsSpace c then ' ' else c) :: wsCollapse (c2 :: s)

/-- The `trimWhitespace` per-cell step. -/
def trimStep (s : String) : String := ⟨jsTrimL (wsCollapse s.data)⟩

/-- The alternation of the `normalizeValues` regex (lines 801-809), written
exactly as its 22 literal alternatives appear in the source — the regex has no
`i` flag, so only these spellings match. -/
def nullTokens : List String :=
  ["null", "NULL", "Null", "N/A", "n/a", "NA", "na", "none", "None", "NONE",
   "undefined", "Undefined", "nil", "NIL", "?", "#N/A", "#VALUE!", "#REF!",
   "#NAME?", "#DIV/0!", "-", "\u2014"]

/-- `\.{2,}` — a run of two or more dots. -/
def isDotsRun (cs : List Char) : Bool :=
  decide (2 ≤ cs.length) && cs.all (· = '.')

/-- The `normalizeValues` per-cell step: the trimmed value is replaced by the
empty string when it matches one of the listed null sentinels or a dot run,
and by its trimmed self otherwise. -/
def normalizeValueStep (c : String) : String :=
  let val := jsTrimL c.data
  if nullTokens.any (fun t => t.data = val) || isDotsRun val then "" else ⟨val⟩

/-- `fuzzyNormalize` (lines 597-599): lower-case, drop whitespace, then drop
everything outside `[a-z0-9]`. -/
def fuzzyNormalize (s : String) : String :=
  ⟨((s.data.map asciiLower).filter fun c => !isJsSpace c).filter
      fun c => ('a' ≤ c && c ≤ 'z') || ('0' ≤ c && c ≤ '9')⟩

/-! ## Configuration and the row pipeline (processFile, lines 628-930) -/

/-- The processing mode (`mode: 'standard' | 'advanced'`). -/
inductive Mode
  | standard
  | advanced
deriving DecidableEq

/-- The feature flags of `CleaningConfig` that determine which output rows are
produced.  The scalar settings (table name, primary-key name, EOL, encoding)
and the flags with no transform implementation (`crossFieldValidation`,
`fillMissing`, `standardizeAddress`) do not affect the row pipeline and are
omitted; `detectOutliers` only adds cells to the numeric-sample store, never
changing a cell, so it is omitted from the row embedding as well. -/
structure CleaningConfig where
  mode : Mode
  removeDuplicates : Bool
  removeEmpty : Bool
  trimWhitespace : Bool
  normalizeValues : Bool
  fixEncoding : Bool
  fuzzyDuplicates : Bool
  validateEmail : Bool
  standardizePhone : Bool
  normalizeCase : Bool
  standardizeDate : Bool
  removeSpecialChars : Bool
  removeHtmlTags : Bool
  fixNumberFormats : Bool
  generateId : Bool
  removeRowsWithEmptyValues : Bool

/-- `sourceIdColIndex` (lines 705-726): with `generateId` enabled, the index
of the first raw header whose lower-case form is exactly `"id"` (`findIndex`),
otherwise the absent sentinel. -/
def sourceIdIdx (cfg : CleaningConfig) (rawHeaders : List String) : Option ℕ :=
  if cfg.generateId then
    rawHeaders.findIdx? fun h => h.data.map asciiLower == "id".data
  else none

/-- `fileHeaders` (lines 704-726): with `generateId`, `"id"` is prepended and a
pre-existing source id column is removed from its position
(`filter((_, i) => i !== sourceIdColIndex)`); otherwise the raw headers
unchanged. -/
def fileHeadersFor (cfg : CleaningConfig) (rawHeaders : List String) : List String :=
  if cfg.generateId then
    match rawHeaders.findIdx? (fun h => h.data.map asciiLower == "id".data) with
    | none => "id" :: rawHeaders
    | some i => "id" :: rawHeaders.eraseIdx i
  else rawHeaders

/-- The column-count reconciliation (lines 770-781) once merge attempts are
exhausted: pad with empty cells or truncate to the raw header count.  (The
progressive re-merge with following physical lines happens while logical rows
are being formed; the embedding receives the resulting logical rows.) -/
def reconcile (n : ℕ) (cells : List String) : List String :=
  if cells.length = n then cells
  else if cells.length < n then cells ++ List.replicate (n - cells.length) ""
  else cells.take n

/-- The advanced-mode per-cell transform chain (lines 811-852) for a cell of a
non-source-id column, in source order: HTML strip (guarded by `/<[^>]+>/`),
email repair (guarded by `looksLikeEmail`), phone formatting (guarded by the
column name and `looksLikePhone`), date normalization (guarded by
`isValidDate`), case normalization, control-character strip and number-format
repair, the last three guarded by the cell being nonempty.  The numeric-sample
collection for outlier detection reads the final cell without changing it. -/
def advCell (cfg : CleaningConfig) (colName : String) (c0 : String) : String :=
  let c1 := if cfg.removeHtmlTags && !(c0 == "") && hasTagPlus c0.data then
    removeHtmlTagsFn c0 else c0
  let c2 := if cfg.validateEmail && looksLikeEmail c1 then fixEmail c1 else c1
  let c3 := if cfg.standardizePhone && isPhoneColumnName colName && looksLikePhone c2 then
    standardizePhoneFn c2 else c2
  let c4 := if cfg.standardizeDate && isValidDate c3 then standardizeDateFn c3 else c3
  let c5 := if cfg.normalizeCase && !(c4 == "") then normalizeCaseFn c4 colName else c4
  let c6 := if cfg.removeSpecialChars && !(c5 == "") then removeSpecialCharsFn c5 else c5
  let c7 := if cfg.fixNumberFormats && !(c6 == "") then fixNumberFormat c6 else c6
  c7

/-- The whole-row transform pass (lines 792-852): encoding repair, whitespace
collapse and null normalization run on every cell when enabled; in advanced
mode the `advCell` chain then runs on every cell except the source id column,
each cell seeing its raw column name (`rawHeaders[i]`). -/
def transformRow (cfg : CleaningConfig) (rawHeaders : List String)
    (cells : List String) : List String :=
  let c1 := if cfg.fixEncoding then cells.map fixEncodingIssues else cells
  let c2 := if cfg.trimWhitespace then c1.map trimStep else c1
  let c3 := if cfg.normalizeValues then c2.map normalizeValueStep else c2
  if cfg.mode = Mode.advanced then
    c3.mapIdx fun i c =>
      if sourceIdIdx cfg rawHeaders = some i then c
      else advCell cfg (rawHeaders.getD i "") c
  else c3

/-- `rawCells.every(c => !c.trim())` — all cells blank (line 857). -/
def allBlank (cells : List String) : Bool :=
  cells.all fun c => jsTrimL c.data == []

/-- `rawCells.some(c => !c.trim())` — some cell blank (line 860). -/
def anyBlank (cells : List String) : Bool :=
  cells.any fun c => jsTrimL c.data == []

/-- The cells that participate in dedup keys and output assembly: every cell
except the source id slot (lines 866, 872, 889-894). -/
def exceptIdSlot (idx : Option ℕ) (cells : List String) : List String :=
  match idx with
  | none => cells
  | some i => cells.eraseIdx i

/-- The exact-dedup key (line 866): the participating cells joined with NUL. -/
def dedupeKey (idx : Option ℕ) (cells : List String) : String :=
  String.intercalate "\x00" (exceptIdSlot idx cells)

/-- The fuzzy-dedup key (line 872): the same cells, fold-normalized. -/
def fuzzyKey (idx : Option ℕ) (cells : List String) : String :=
  String.intercalate "\x00" ((exceptIdSlot idx cells).map fuzzyNormalize)

/-- The final length clamp (lines 901-907): pad with empty cells while short,
slice when long — the emitted row always has the output header count. -/
def clampTo (n : ℕ) (cells : List String) : List String :=
  if cells.length < n then cells ++ List.replicate (n - cells.length) ""
  else cells.take n

/-- The output assembly for one surviving row (lines 881-907): with identity
generation the fresh sequential id is prepended and the source id slot is
dropped (the source loop over `rawHeaders.length` equals `exceptIdSlot` here
because reconciliation has made the cell count equal the header count); the
row is then clamped to the output header count. -/
def assembleRow (cfg : CleaningConfig) (rawHeaders : List String) (idCounter : ℕ)
    (cells : List String) : List String :=
  let outputCells :=
    if cfg.generateId then
      toString idCounter :: exceptIdSlot (sourceIdIdx cfg rawHeaders) cells
    else cells
  clampTo (fileHeadersFor cfg rawHeaders).length outputCells

/-- The mutable dedup-and-id state of the row loop (lines 653-660). -/
structure RowState where
  seen : List String
  fuzzySeen : List String
  idCounter : ℕ

/-- The row-processing loop (lines 735-920) over already-parsed logical rows:
reconciliation, transforms, the two row filters, exact dedup then fuzzy dedup
(the exact key is recorded before the fuzzy check runs, as in the source), and
output assembly with the sequential id counter incremented only on emission;
returns the emitted output rows in order. -/
def runRows (cfg : CleaningConfig) (rawHeaders : List String) :
    RowState → List (List String) → List (List String)
  | _, [] => []
  | st, r0 :: rs =>
    let cells := transformRow cfg rawHeaders (reconcile rawHeaders.length r0)
    if cfg.removeEmpty && allBlank cells then runRows cfg rawHeaders st rs
    else if cfg.removeRowsWithEmptyValues && anyBlank cells then
      runRows cfg rawHeaders st rs
    else
      let key := dedupeKey (sourceIdIdx cfg rawHeaders) cells
      if cfg.removeDuplicates && st.seen.contains key then runRows cfg rawHeaders st rs
      else
        let st1 := if cfg.removeDuplicates then { st with seen := key :: st.seen } else st
        let fkey := fuzzyKey (sourceIdIdx cfg rawHeaders) cells
        if cfg.fuzzyDuplicates && st1.fuzzySeen.contains fkey then
          runRows cfg rawHeaders st1 rs
        else
          let st2 :=
            if cfg.fuzzyDuplicates then { st1 with fuzzySeen := fkey :: st1.fuzzySeen }
            else st1
          assembleRow cfg rawHeaders st2.idCounter cells ::
            runRows cfg rawHeaders
              { st2 with
                idCounter := if cfg.generateId then st2.idCounter + 1 else st2.idCounter }
              rs

/-- The full row stage: all logical rows processed from the initial state
(empty dedup sets, id counter 1). -/
def processRows (cfg : CleaningConfig) (rawHeaders : List String)
    (rows : List (List String)) : List (List String) :=
  runRows cfg rawHeaders ⟨[], [], 1⟩ rows

/-! ## Type inference (`detectColumnTypes`, lines 491-528) -/

/-- The null-sentinel filter of `detectColumnTypes` (line 496) — this regex
carries the `i` flag, so it is decided on the lower-cased value. -/
def typeNullTok (v : String) : Bool :=
  ((["null", "n/a", "na", "none", "undefined", "nil", "?", "-"].map
      fun t => t.data)).contains (v.data.map asciiLower)

/-- `^-?\d+$`. -/
def intShaped (cs : List Char) : Bool :=
  match cs with
  | '-' :: rest => !rest.isEmpty && rest.all Char.isDigit
  | _ => !cs.isEmpty && cs.all Char.isDigit

/-- The mantissa `\d*\.?\d+`: all digits, or digits-dot-digits with a nonempty
fraction. -/
def mantShaped (cs : List Char) : Bool :=
  match splitChar '.' cs with
  | [a] => !a.isEmpty && a.all Char.isDigit
  | [a, b] => a.all Char.isDigit && !b.isEmpty && b.all Char.isDigit
  | _ => false

/-- `^-?\d*\.?\d+([eE][+-]?\d+)?$` (the mantissa cannot contain `e`, so
splitting at the first `e`/`E` is exact). -/
def decShaped (cs : List Char) : Bool :=
  let body := match cs with
    | '-' :: rest => rest
    | _ => cs
  let m := body.takeWhile fun c => !(c == 'e' || c == 'E')
  match body.dropWhile (fun c => !(c == 'e' || c == 'E')) with
  | [] => mantShaped m
  | _ :: expPart =>
    let digitsPart := match expPart with
      | '+' :: ds => ds
      | '-' :: ds => ds
      | ds => ds
    mantShaped m && !digitsPart.isEmpty && digitsPart.all Char.isDigit

/-- `^(true|false|yes|no|0|1|t|f|y|n)$` with the `i` flag. -/
def boolShaped (v : String) : Bool :=
  ((["true", "false", "yes", "no", "0", "1", "t", "f", "y", "n"].map
      fun t => t.data)).contains (v.data.map asciiLower)

/-- `Math.abs(parseInt(v, 10))` on a `^-?\d+$`-shaped string: the digit value
(exact; the host only rounds above 2^53, far beyond the integer tiers this is
compared against). -/
def absIntVal (cs : List Char) : ℕ :=
  match cs with
  | '-' :: rest => natOfDigits rest
  | _ => natOfDigits cs

/-- `v.split('.')` then `p[1] ? p[1].length : 0` — the length of the text
between the first and second dot (for exponent forms this includes the
exponent characters, as in the source). -/
def fracLen (cs : List Char) : ℕ :=
  match splitChar '.' cs with
  | _ :: p1 :: _ => p1.length
  | _ => 0

/-- Binary length of a natural number (position of the leading bit plus one),
computed with structural fuel so that it evaluates inside the kernel; 128 bits
of fuel covers every product that can appear here, since the engine samples at
most 500 rows and `mant07 * 500 < 2^62`. -/
def bitLen : ℕ → ℕ → ℕ
  | 0, _ => 0
  | fuel + 1, n => if n = 0 then 0 else bitLen fuel (n / 2) + 1

/-- The mantissa of 0.7 as an IEEE-754 double: 0.7 ≈ 3152519739159347 · 2⁻⁵². -/
def mant07 : ℕ := 3152519739159347

/-- `n * 0.7` computed exactly as the host computes it — one IEEE-754 double
multiplication of the double nearest 0.7 by the exact integer `n` — returned
scaled by 2⁵³, which makes it a natural number for every representable result
here.  The rounding is round-to-nearest, ties to even, applied to the exact
product `mant07 · n · 2⁻⁵²`. -/
def jsTimes07scaled (n : ℕ) : ℕ :=
  let p := mant07 * n
  if p = 0 then 0
  else
    let L := bitLen 128 p
    if L ≤ 53 then p * 2
    else
      let r := L - 53
      let q := p >>> r
      let rem := p - (q <<< r)
      let half := (1 : ℕ) <<< (r - 1)
      let q2 := if half < rem ∨ (rem = half ∧ q % 2 = 1) then q + 1 else q
      q2 <<< (r + 1)

/-- The comparison `count > values.length * 0.7` (lines 515-519): the host
compares the small integer `count` against the double product; scaling both by
2⁵³ makes the comparison exact in ℕ. -/
def above70pct (count n : ℕ) : Bool :=
  decide (jsTimes07scaled n < count * 2 ^ 53)

/-- The per-column classification of `detectColumnTypes` (lines 498-525),
applied to the filtered sample values of one column.  (`Math.max(...)` over
the nonempty value list equals a fold of `max` from 0 because every compared
quantity is nonnegative.) -/
def classifyValues (values : List String) : String :=
  if values.isEmpty then "varchar"
  else if values.all fun v => intShaped v.data then
    let maxVal := (values.map fun v => absIntVal v.data).foldl max 0
    if maxVal < 128 then "tinyint"
    else if maxVal < 32768 then "smallint"
    else if maxVal < 2147483648 then "int"
    else "bigint"
  else if values.all fun v => decShaped v.data then
    let maxDec := (values.map fun v => fracLen v.data).foldl max 0
    if maxDec ≤ 2 then "decimal_money" else "decimal"
  else if values.all boolShaped then "bool"
  else if above70pct (values.filter (fun v => isValidDate v)).length values.length then
    "date"
  else if above70pct (values.filter looksLikeEmail).length values.length then "email"
  else
    let maxLen := (values.map fun v => v.data.length).foldl max 0
    if 5000 < maxLen then "longtext"
    else if 500 < maxLen then "text"
    else if 255 < maxLen then "varchar_long"
    else "varchar"

/-- `detectColumnTypes` (lines 491-528): per output header, the sample column
is read (`String(row[colIndex] || '').trim()`), null-sentinel-looking values
are discarded, and the remainder is classified; returned as the
header-to-type association in header order. -/
def detectColumnTypes (headers : List String) (sampleRows : List (List String)) :
    List (String × String) :=
  headers.mapIdx fun colIndex header =>
    let values := (sampleRows.map fun row => jsTrim (row.getD colIndex "")).filter
      fun v => !(v == "") && !typeNullTok v
    (header, classifyValues values)

/-! ## Progress reporting (lines 672-678, 922-925, 944, 969) -/

/-- The read-progress formula (line 677): `Math.min(50, offset / size * 50)`,
as an exact rational.  (The host computes it in doubles; IEEE division and
multiplication by positive constants are monotone and preserve the 50 cap, so
order facts about this model carry over.) -/
def readPercent (offset size : ℚ) : ℚ :=
  if offset / size * 50 ≤ 50 then offset / size * 50 else 50

/-- The processing-progress formula (line 923): `50 + offset / size * 30`. -/
def procPercent (offset size : ℚ) : ℚ := 50 + offset / size * 30

/-- The in-loop progress updates: `offset` has already been advanced by the
chunk size when the read update fires, and may overshoot the file size on the
last chunk, exactly as in the source; the processing update fires after the
chunks whose cumulative row count is a positive multiple of 5000 (the trigger
flag). -/
def progressLoop (size chunkSize : ℚ) : ℚ → List Bool → List ℚ
  | _, [] => []
  | offset, t :: ts =>
    readPercent offset size ::
      ((if t then [procPercent offset size] else []) ++
        progressLoop size chunkSize (offset + chunkSize) ts)

/-- The full percent sequence handed to the progress sink in one run:
the per-chunk updates, then 85 (type detection) and 100 (completion). -/
def progressPercents (size chunkSize : ℚ) (triggers : List Bool) : List ℚ :=
  progressLoop size chunkSize chunkSize triggers ++ [85, 100]

/-! ## Example configurations used by concrete theorems -/

/-- An advanced-mode configuration with only phone standardization enabled. -/
def cfgPhoneOnly : CleaningConfig :=
  { mode := Mode.advanced, removeDuplicates := false, removeEmpty := false,
    trimWhitespace := false, normalizeValues := false, fixEncoding := false,
    fuzzyDuplicates := false, validateEmail := false, standardizePhone := true,
    normalizeCase := false, standardizeDate := false, removeSpecialChars := false,
    removeHtmlTags := false, fixNumberFormats := false, generateId := false,
    removeRowsWithEmptyValues := false }

/-- A standard-mode configuration with identity generation, exact dedup and
fuzzy dedup all enabled and every transform disabled. -/
def cfgDedupFuzzy : CleaningConfig :=
  { mode := Mode.standard, removeDuplicates := true, removeEmpty := false,
    trimWhitespace := false, normalizeValues := false, fixEncoding := false,
    fuzzyDuplicates := true, validateEmail := false, standardizePhone := false,
    normalizeCase := false, standardizeDate := false, removeSpecialChars := false,
    removeHtmlTags := false, fixNumberFormats := false, generateId := true,
    removeRowsWithEmptyValues := false }

/-- `cfgDedupFuzzy` with fuzzy dedup turned off. -/
def cfgDedupOnly : CleaningConfig :=
  { cfgDedupFuzzy with fuzzyDuplicates := false }

/-- A standard-mode configuration with identity generation and the
drop-rows-with-empty-values filter enabled, everything else disabled. -/
def cfgGenId : CleaningConfig :=
  { cfgDedupFuzzy with
    removeDuplicates := false
    fuzzyDuplicates := false
    removeRowsWithEmptyValues := true }

/-! ## Specification-side dedup description (for the C3 analysis) -/

/-- The per-row preparation shared by the filters, dedup and assembly stages:
column-count reconciliation followed by the transform pass. -/
def prepRow (cfg : CleaningConfig) (raw : List String) (r : List String) : List String :=
  transformRow cfg raw (reconcile raw.length r)

/-- Whether a prepared row passes both row-level filters (lines 856-862). -/
def passesFilters (cfg : CleaningConfig) (cells : List String) : Bool :=
  !(cfg.removeEmpty && allBlank cells) &&
    !(cfg.removeRowsWithEmptyValues && anyBlank cells)

/-- Stated from the claim's words: among rows sharing a dedup key, keep
exactly the first occurrence, scanning left to right with the set of keys
already seen. -/
def keepFirstByKey (key : List String → String) (seen : List String) :
    List (List String) → List (List String)
  | [] => []
  | r :: rs =>
    if seen.contains (key r) then keepFirstByKey key seen rs
    else r :: keepFirstByKey key (key r :: seen) rs

/-- Sequential assembly of the surviving prepared rows with the id counter. -/
def assembleAll (cfg : CleaningConfig) (raw : List String) :
    ℕ → List (List String) → List (List String)
  | _, [] => []
  | k, r :: rs =>
    assembleRow cfg raw k r ::
      assembleAll cfg raw (if cfg.generateId then k + 1 else k) rs

/-! ## Analysis-side definitions: whitespace token shapes, adjacency runs,
and the email canonicalization stages -/

/-- The token-list shape `split(/(\s+)/)` produces after its first word token:
alternating (nonempty all-whitespace, whitespace-free word) pairs, where every
word followed by another separator is nonempty; the final word may be empty. -/
def wsAltTail : List (List Char) → Bool
  | [] => true
  | [_] => false
  | sp :: w :: rest =>
    !sp.isEmpty && sp.all isJsSpace && w.all (fun c => !isJsSpace c) &&
      (rest.isEmpty || !w.isEmpty) && wsAltTail rest

/-- A full `split(/(\s+)/)` token list: a (possibly empty) whitespace-free
word, then the alternation. -/
def wsAlt (toks : List (List Char)) : Bool :=
  match toks with
  | [] => false
  | w :: rest => w.all (fun c => !isJsSpace c) && wsAltTail rest

/-- No two adjacent occurrences of `t`. -/
def noRun (t : Char) : List Char → Bool
  | [] => true
  | [_] => true
  | a :: b :: s => !(a = t ∧ b = t : Bool) && noRun t (b :: s)

def emailCanon (email : String) : List Char :=
  collapseRuns '.' (collapseRuns ','
    ((jsTrimL (email.data.map asciiLower)).filter fun c => !isJsSpace c))

def emailFixed (email : String) : List Char :=
  match domainFixes.find? (fun pr => ('@' :: pr.1.data).isSuffixOf (emailCanon email)) with
  | some pr => replaceFirstL ('@' :: pr.1.data) ('@' :: pr.2.data) (emailCanon email)
  | none => emailCanon email

/-- Every character of the string is 7-bit ASCII.  On such data the ASCII
case maps `asciiUpper`/`asciiLower` coincide with the source's full-Unicode
`toUpperCase`/`toLowerCase`, which are length-preserving there; outside ASCII
the JS case mappings can change length (e.g. `ß` upper-cases to `SS`). -/
def isAsciiStr (s : String) : Bool :=
  s.data.all fun c => c.toNat < 128

/-! ## Round-trip lemmas for the parser -/

theorem data_mk (l : List Char) : (String.mk l).data = l := rfl

theorem parseAux_noSpecial (sep : Char) (cell cs : List Char)
    (h : ∀ c ∈ cs, c ≠ '"' ∧ c ≠ sep) :
    parseAux sep false cell cs = [finalizeCell (cell ++ cs)] := by
  induction cs generalizing cell with
  | nil => simp [parseAux]
  | cons c rest ih =>
    have hc := h c (List.mem_cons_self ..)
    have step : parseAux sep false cell (c :: rest) = parseAux sep false (cell ++ [c]) rest := by
      simp [parseAux, hc.1, hc.2]
    rw [step, ih (cell ++ [c]) (fun d hd => h d (List.mem_cons_of_mem _ hd))]
    simp

theorem parseAux_quoted (sep : Char) (cell s : List Char) :
    parseAux sep true cell (doubleQuotes s ++ ['"']) = [finalizeCell (cell ++ s)] := by
  induction s generalizing cell with
  | nil => simp [doubleQuotes, parseAux]
  | cons c rest ih =>
    by_cases hc : c = '"'
    · subst hc
      have shape : doubleQuotes ('"' :: rest) ++ ['"'] =
          '"' :: ('"' :: (doubleQuotes rest ++ ['"'])) := by simp [doubleQuotes]
      rw [shape]
      have step : parseAux sep true cell ('"' :: ('"' :: (doubleQuotes rest ++ ['"']))) =
          parseAux sep true (cell ++ ['"']) (doubleQuotes rest ++ ['"']) := by
        simp [parseAux]
      rw [step, ih (cell ++ ['"'])]
      simp
    · have shape : doubleQuotes (c :: rest) ++ ['"'] =
          c :: (doubleQuotes rest ++ ['"']) := by simp [doubleQuotes, hc]
      rw [shape]
      have step : parseAux sep true cell (c :: (doubleQuotes rest ++ ['"'])) =
          parseAux sep true (cell ++ [c]) (doubleQuotes rest ++ ['"']) := by
        simp [parseAux, hc]
      rw [step, ih (cell ++ [c])]
      simp

/-- C10. Serialization/parsing round-trip at the public interface: for every
cell string `s` with no leading or trailing (JavaScript) whitespace that does
not both start and end with a double quote, `parseCSVLine (quoteCell s) ','`
returns exactly the one-element list `[s]` — cells written by the output
assembler are recovered unchanged when the produced chunks are re-parsed. -/
theorem quoteCell_parseCSVLine_roundtrip (s : String)
    (htrim : jsTrim s = s)
    (hq : ¬(s.data.headD ' ' = '"' ∧ s.data.getLastD ' ' = '"')) :
    parseCSVLine (quoteCell s) ',' = [s] := by
  have hdata : jsTrimL s.data = s.data := congrArg String.data htrim
  by_cases hneed : needsQuote s.data
  · -- quoted path: the value is wrapped and embedded quotes are doubled
    rw [parseCSVLine, quoteCell, if_pos hneed, data_mk]
    have step : parseAux ',' false [] ('"' :: (doubleQuotes s.data ++ ['"'])) =
        parseAux ',' true [] (doubleQuotes s.data ++ ['"']) := by
      simp [parseAux]
    rw [step, parseAux_quoted ',' [] s.data]
    simp only [List.nil_append, List.map_cons, List.map_nil]
    rw [show finalizeCell s.data = s.data by
      rw [finalizeCell]; simp only [hdata]; rw [if_neg hq]]
  · -- unquoted path: the value contains no quote, comma, newline or return
    have hfree : ∀ c ∈ s.data, c ≠ '"' ∧ c ≠ ',' := by
      intro c hcmem
      have : ¬(c ∈ [',', '"', '\n', '\r'] : Bool) = true := by
        intro hmem
        exact hneed (List.any_eq_true.mpr ⟨c, hcmem, hmem⟩)
      simp only [List.mem_cons, List.not_mem_nil, or_false, decide_eq_true_eq] at this
      push_neg at this
      exact ⟨this.2.1, this.1⟩
    rw [parseCSVLine, quoteCell, if_neg hneed]
    rw [parseAux_noSpecial ',' [] s.data hfree]
    simp only [List.nil_append, List.map_cons, List.map_nil]
    rw [show finalizeCell s.data = s.data by
      rw [finalizeCell]; simp only [hdata]; rw [if_neg hq]]

/-- Witness for C10 at the concrete cell `"a,b"` (a value that needs quoting). -/
theorem quoteCell_parseCSVLine_roundtrip_witness :
    jsTrim "a,b" = "a,b" ∧
      ¬(("a,b" : String).data.headD ' ' = '"' ∧ ("a,b" : String).data.getLastD ' ' = '"') ∧
      parseCSVLine (quoteCell "a,b") ',' = ["a,b"] :=
  ⟨by decide, by decide,
    quoteCell_parseCSVLine_roundtrip "a,b" (by decide) (by decide)⟩

/-! ## Separator detection: specification -/

/-- C9. For every header line, `detectSeparator` returns the candidate
delimiter (comma, tab, semicolon, pipe) with the highest occurrence count in
the line; when two candidates tie it returns the one earlier in the fixed
priority order comma, tab, semicolon, pipe; and when all four counts are zero
it returns comma.  Being a total function of the line it never throws. -/
theorem detectSeparator_spec (line : String) :
    detectSeparator line ∈ sepCandidates ∧
      (∀ d ∈ sepCandidates,
        line.data.count d ≤ line.data.count (detectSeparator line)) ∧
      (∀ d ∈ sepCandidates,
        line.data.count d = line.data.count (detectSeparator line) →
          sepCandidates.indexOf (detectSeparator line) ≤ sepCandidates.indexOf d) ∧
      ((∀ d ∈ sepCandidates, line.data.count d = 0) → detectSeparator line = ',') := by
  simp only [detectSeparator, sepCandidates, List.foldl]
  split_ifs <;>
    refine ⟨by simp, ?_, ?_, ?_⟩ <;>
      first
        | (intro d hd
           fin_cases hd <;> simp_all [List.indexOf, List.findIdx, List.findIdx.go] <;> omega)
        | (intro hz
           have z1 := hz ',' (by decide)
           have z2 := hz '\t' (by decide)
           have z3 := hz ';' (by decide)
           have z4 := hz '|' (by decide)
           first | rfl | (exfalso; omega))

/-- Witness for C9 at the concrete header line `";;|"` (semicolon wins). -/
theorem detectSeparator_spec_witness :
    (";;|" : String).data.count ',' ≤
        (";;|" : String).data.count (detectSeparator ";;|") ∧
      detectSeparator ";;|" = ';' :=
  ⟨(detectSeparator_spec ";;|").2.1 ',' (by decide), by decide⟩

/-! ## C4: phone standardization is gated by the column name -/

/-- C4. The phone-standardization transform runs on a cell only when the
column name matches `phone|mobile|cell|fax|tel|contact_no|contact_num|whatsapp`
case-insensitively: on any column whose name does not match, the
`standardizePhone` flag is irrelevant to the per-cell pipeline.  In
particular a column named "description" does not match, and its cell
"1234567" — which does satisfy the phone-shape rule — passes through the
advanced pipeline unchanged even with phone standardization enabled. -/
theorem phone_gated_by_column_name (cfg : CleaningConfig) (col c : String)
    (h : isPhoneColumnName col = false) :
    advCell cfg col c = advCell { cfg with standardizePhone := false } col c ∧
      isPhoneColumnName "description" = false ∧
      looksLikePhone "1234567" = true ∧
      advCell cfgPhoneOnly "description" "1234567" = "1234567" ∧
      isPhoneColumnName "Phone_Number" = true := by
  refine ⟨?_, by decide, by decide, by decide, by decide⟩
  simp only [advCell, h, Bool.and_false, Bool.false_and, Bool.and_self,
    Bool.false_eq_true, if_false]

/-- Witness for C4 at the concrete column "description". -/
theorem phone_gated_by_column_name_witness :
    isPhoneColumnName "description" = false ∧
      advCell cfgPhoneOnly "description" "1234567" =
        advCell { cfgPhoneOnly with standardizePhone := false } "description" "1234567" :=
  ⟨by decide, (phone_gated_by_column_name cfgPhoneOnly "description" "1234567" (by decide)).1⟩

/-! ## C5: null normalization is not case-insensitive -/

/-- C5 counterexample: the `normalizeValues` regex has no `i` flag, so the
upper/lower-case variant "nUll" (and likewise "Na", "NoNe") of the null
sentinels is NOT normalized to the empty string, contradicting the claimed
case-insensitivity. -/
theorem normalizeValues_case_sensitive_cex :
    normalizeValueStep "nUll" = "nUll" ∧ normalizeValueStep "nUll" ≠ "" ∧
      normalizeValueStep "Na" = "Na" ∧ normalizeValueStep "NoNe" = "NoNe" := by
  refine ⟨by decide, by decide, by decide, by decide⟩

/-- C5 amended: with null normalization enabled, a cell whose trimmed value
matches one of the 22 spellings listed literally in the source alternation
(null/NULL/Null, N/A / n/a, NA/na, none/None/NONE, undefined/Undefined,
nil/NIL, ?, #N/A, #VALUE!, #REF!, #NAME?, #DIV/0!, -, the em-dash) or a run of
two or more dots is replaced by the empty string; the match is case-sensitive
against those spellings, not case-insensitive. -/
theorem normalizeValues_listed_tokens (c : String)
    (h : jsTrimL c.data ∈ nullTokens.map (fun t => t.data) ∨
      isDotsRun (jsTrimL c.data) = true) :
    normalizeValueStep c = "" := by
  rw [normalizeValueStep]
  rcases h with h | h
  · have hany : (nullTokens.any fun t => t.data = jsTrimL c.data) = true := by
      rw [List.any_eq_true]
      obtain ⟨t, ht, heq⟩ := List.mem_map.mp h
      exact ⟨t, ht, by simp [heq]⟩
    simp [hany]
  · simp [h]

/-- Witness for C5 at the concrete cell "NULL". -/
theorem normalizeValues_listed_tokens_witness :
    (jsTrimL ("NULL" : String).data ∈ nullTokens.map (fun t => t.data) ∨
      isDotsRun (jsTrimL ("NULL" : String).data) = true) ∧
      normalizeValueStep "NULL" = "" :=
  ⟨Or.inl (by decide), normalizeValues_listed_tokens "NULL" (Or.inl (by decide))⟩

/-! ## C8: the transforms are not all idempotent -/

/-- C8 counterexample: HTML stripping and encoding repair are not idempotent
as functions on all strings.  Entity decoding turns "&lt;b&gt;" into "<b>",
which a second application strips to ""; mojibake repair turns "ÂÂ°" (C2 C2 B0)
into "Â°", which a second application decodes further to "°". -/
theorem transforms_not_all_idempotent_cex :
    removeHtmlTagsFn (removeHtmlTagsFn "&lt;b&gt;") ≠ removeHtmlTagsFn "&lt;b&gt;" ∧
      fixEncodingIssues (fixEncodingIssues "ÂÂ°") ≠
        fixEncodingIssues "ÂÂ°" := by
  refine ⟨by decide, by decide⟩

/-! ## C3: exact dedup interacts with fuzzy dedup -/

/-- C3 counterexample: the claim quantifies over every configuration with
exact dedup enabled, but with fuzzy dedup also enabled two processed rows that
agree in every position except the source-id slot can BOTH be dropped.  Here
rows 2 and 3 agree except in the id slot; row 2's exact key is recorded and
then row 2 is dropped as a fuzzy duplicate of row 1, so row 3 is dropped as an
exact duplicate of the already-dropped row 2: zero of the two survive, not
exactly one. -/
theorem exact_dedup_cex :
    cfgDedupFuzzy.removeDuplicates = true ∧
      dedupeKey (sourceIdIdx cfgDedupFuzzy ["id", "name"]) ["2", "jane  doe"] =
        dedupeKey (sourceIdIdx cfgDedupFuzzy ["id", "name"]) ["3", "jane  doe"] ∧
      processRows cfgDedupFuzzy ["id", "name"]
          [["1", "Jane Doe"], ["2", "jane  doe"], ["3", "jane  doe"]] =
        [["1", "Jane Doe"]] := by
  refine ⟨rfl, by decide, by decide⟩

/-! ## C6: the 70% date threshold is strict -/

/-- C6 counterexample: a sample in which exactly 70% of the values are valid
dates is NOT classified 'date'.  For ten values, seven of which are ISO dates,
the host computes `10 * 0.7 = 7` exactly in double precision (`jsTimes07scaled
10 = 7 · 2⁵³`), the strict comparison `7 > 7` fails, and the column falls
through to 'varchar'. -/
theorem type_inference_70pct_cex :
    jsTimes07scaled 10 = 7 * 2 ^ 53 ∧
      ((List.replicate 7 ("2020-01-01" : String) ++ List.replicate 3 "hello").filter
          fun v => isValidDate v).length = 7 ∧
      detectColumnTypes ["c"]
          (List.replicate 7 ["2020-01-01"] ++ List.replicate 3 ["hello"]) =
        [("c", "varchar")] := by
  refine ⟨by decide, by decide, by decide⟩

/-! ## C7: progress percents are not globally monotone -/

/-- C7 counterexample: the percent sequence of a run is not monotonically
non-decreasing.  For a 1.5 MiB file read in 1 MiB chunks whose two chunks both
land on a 5000-row boundary, the emitted percents are
`[100/3, 70, 50, 90, 85, 100]`: the processing update of chunk 1 (70) is
followed by the smaller read update of chunk 2 (50), and the overshooting
processing update of the final chunk (90, computed from an offset past the end
of the file) is followed by the smaller type-detection update (85). -/
theorem progress_not_monotone_cex :
    progressPercents 1572864 1048576 [true, true] = [100 / 3, 70, 50, 90, 85, 100] ∧
      ¬ List.Chain' (fun a b => a ≤ b) (progressPercents 1572864 1048576 [true, true]) := by
  constructor
  · norm_num [progressPercents, progressLoop, readPercent, procPercent]
  · rw [(by norm_num [progressPercents, progressLoop, readPercent, procPercent] :
      progressPercents 1572864 1048576 [true, true] = [100 / 3, 70, 50, 90, 85, 100])]
    intro h
    simp [List.chain'_cons] at h
    have h2 := h.2.1
    norm_num at h2

/-! ## C2: every emitted row has the output header width -/

theorem clampTo_length (n : ℕ) (cells : List String) : (clampTo n cells).length = n := by
  rw [clampTo]
  split
  · simp only [List.length_append, List.length_replicate]
    omega
  · simp only [List.length_take]
    omega

theorem assembleRow_length (cfg : CleaningConfig) (raw : List String) (k : ℕ)
    (cells : List String) :
    (assembleRow cfg raw k cells).length = (fileHeadersFor cfg raw).length := by
  rw [assembleRow]
  exact clampTo_length _ _

theorem runRows_mem_length (cfg : CleaningConfig) (raw : List String) :
    ∀ (rows : List (List String)) (st : RowState) (r : List String),
      r ∈ runRows cfg raw st rows → r.length = (fileHeadersFor cfg raw).length := by
  intro rows
  induction rows with
  | nil => intro st r h; simp [runRows] at h
  | cons r0 rs ih =>
    intro st r h
    simp only [runRows] at h
    repeat' split at h
    all_goals try exact ih _ _ h
    all_goals rcases List.mem_cons.mp h with h | h
    all_goals first
      | (rw [h]; exact assembleRow_length ..)
      | exact ih _ _ h

/-- C2. For every configuration and every input, every data row appended to
the output has exactly the output header count of cells at the moment it is
serialized: the final clamp pads short rows with empty cells and truncates
long ones, so no row is ever emitted at the wrong width (and the header row,
chunk zero, is the output header list itself). -/
theorem output_rows_have_header_width (cfg : CleaningConfig) (raw : List String)
    (rows : List (List String)) (r : List String)
    (hr : r ∈ processRows cfg raw rows) :
    r.length = (fileHeadersFor cfg raw).length :=
  runRows_mem_length cfg raw rows ⟨[], [], 1⟩ r hr

/-- Witness for C2 at a concrete run whose single input row is too short and
gets padded to the header width. -/
theorem output_rows_have_header_width_witness :
    ["x"] ++ [""] ∈ processRows cfgPhoneOnly ["a", "b"] [["x"]] ∧
      (["x", ""] : List String).length = (fileHeadersFor cfgPhoneOnly ["a", "b"]).length :=
  ⟨by decide,
    output_rows_have_header_width cfgPhoneOnly ["a", "b"] [["x"]] ["x", ""] (by decide)⟩

/-! ## C1: identity generation -/

theorem fileHeadersFor_generateId_pos (cfg : CleaningConfig) (raw : List String)
    (hId : cfg.generateId = true) : 0 < (fileHeadersFor cfg raw).length := by
  rw [fileHeadersFor, if_pos hId]
  cases raw.findIdx? (fun h => h.data.map asciiLower == "id".data) <;> simp

theorem clampTo_cons (n : ℕ) (hn : 0 < n) (x : String) (l : List String) :
    clampTo n (x :: l) = x :: clampTo (n - 1) l := by
  obtain ⟨m, rfl⟩ : ∃ m, n = m + 1 := ⟨n - 1, by omega⟩
  rw [clampTo, clampTo]
  simp only [List.length_cons, Nat.add_sub_cancel]
  by_cases h : l.length < m
  · rw [if_pos (show l.length + 1 < m + 1 by omega), if_pos h]
    simp only [List.cons_append, List.cons.injEq, true_and]
    have : m + 1 - (l.length + 1) = m - l.length := by omega
    rw [this]
  · rw [if_neg (show ¬(l.length + 1 < m + 1) by omega), if_neg h]
    simp [List.take_succ_cons]

theorem assembleRow_generateId (cfg : CleaningConfig) (raw : List String) (k : ℕ)
    (cells : List String) (hId : cfg.generateId = true) :
    assembleRow cfg raw k cells =
      toString k :: clampTo ((fileHeadersFor cfg raw).length - 1)
        (exceptIdSlot (sourceIdIdx cfg raw) cells) := by
  have hpos := fileHeadersFor_generateId_pos cfg raw hId
  simp only [assembleRow, hId, if_true]
  exact clampTo_cons _ hpos _ _

theorem runRows_generateId_ids (cfg : CleaningConfig) (raw : List String)
    (hId : cfg.generateId = true) :
    ∀ (rows : List (List String)) (st : RowState) (k : ℕ) (x : List String),
      (runRows cfg raw st rows)[k]? = some x →
      ∃ src ∈ rows,
        x = toString (st.idCounter + k) ::
          clampTo ((fileHeadersFor cfg raw).length - 1)
            (exceptIdSlot (sourceIdIdx cfg raw)
              (transformRow cfg raw (reconcile raw.length src))) := by
  intro rows
  induction rows with
  | nil => intro st k x hk; simp [runRows] at hk
  | cons r0 rs ih =>
    intro st k x hk
    simp only [runRows, hId, if_true] at hk
    repeat' split at hk
    all_goals
      try
        (obtain ⟨src, hsrc, hx⟩ := ih _ _ _ hk
         exact ⟨src, List.mem_cons_of_mem _ hsrc, hx⟩)
    all_goals
      cases k with
      | zero =>
        refine ⟨r0, List.mem_cons_self .., ?_⟩
        simp only [List.getElem?_cons_zero, Option.some.injEq] at hk
        rw [← hk, assembleRow_generateId cfg raw _ _ hId]
        simp
      | succ j =>
        simp only [List.getElem?_cons_succ] at hk
        obtain ⟨src, hsrc, hx⟩ := ih _ _ _ hk
        refine ⟨src, List.mem_cons_of_mem _ hsrc, ?_⟩
        rw [hx]
        congr 2
        show st.idCounter + 1 + j = st.idCounter + (j + 1)
        omega

theorem countP_le_one_erase_findIdx (p : String → Bool) :
    ∀ l : List String, l.countP p ≤ 1 →
      (match l.findIdx? p with
       | none => l
       | some i => l.eraseIdx i) = l.filter fun h => !(p h) := by
  intro l
  induction l with
  | nil => intro _; simp
  | cons a t ih =>
    intro hcnt
    rw [List.countP_cons] at hcnt
    rw [List.findIdx?_cons, List.findIdx?_succ]
    by_cases hp : p a
    · rw [if_pos hp]
      have hall : ∀ x ∈ t, p x = false := by
        rw [hp] at hcnt
        simpa using hcnt
      simp only [List.eraseIdx_cons_zero, List.filter_cons, hp, Bool.not_true,
        Bool.false_eq_true, if_false]
      exact (List.filter_eq_self.mpr fun x hx => by simp [hall x hx]).symm
    · rw [if_neg hp]
      have ht : t.countP p ≤ 1 := by
        rw [if_neg hp] at hcnt
        omega
      have hfa : (!(p a)) = true := by simp [hp]
      rcases hfind : t.findIdx? p with _ | i
      · have hall : ∀ x ∈ t, ¬(p x = true) := by
          intro x hx hpx
          have := List.findIdx?_eq_none_iff.mp hfind x hx
          simp [hpx] at this
        have hfilter : t.filter (fun h => !(p h)) = t :=
          List.filter_eq_self.mpr fun x hx => by simp [hall x hx]
        simp only [Option.map_none', List.filter_cons, hfa, if_true, hfilter]
      · have h := ih ht
        rw [hfind] at h
        simp only [Option.map_some', List.eraseIdx_cons_succ, List.filter_cons, hfa, if_true]
        exact congrArg (a :: ·) h

/-- C1. With identity generation enabled: the output headers are exactly
`"id"` followed by the raw headers minus any pre-existing id column; the id
cell of the k-th emitted data row (0-based k) is the decimal string of k+1, so
ids run 1..N in emission order with no gaps or repeats; and each emitted row
is the fresh id followed by the source row's cells with the source id slot
removed, so the source id column's values never appear in the output. -/
theorem generateId_spec (cfg : CleaningConfig) (raw : List String)
    (rows : List (List String)) (hId : cfg.generateId = true)
    (hcnt : (raw.countP fun h => h.data.map asciiLower == "id".data) ≤ 1) :
    fileHeadersFor cfg raw =
        "id" :: raw.filter (fun h => !(h.data.map asciiLower == "id".data)) ∧
      (∀ k x, (processRows cfg raw rows)[k]? = some x →
        ∃ src ∈ rows,
          x = toString (k + 1) ::
            clampTo ((fileHeadersFor cfg raw).length - 1)
              (exceptIdSlot (sourceIdIdx cfg raw)
                (transformRow cfg raw (reconcile raw.length src)))) ∧
      (processRows cfg raw rows).map (fun r => r.headD "") =
        (List.range (processRows cfg raw rows).length).map fun k => toString (k + 1) := by
  have hids := runRows_generateId_ids cfg raw hId rows ⟨[], [], 1⟩
  refine ⟨?_, ?_, ?_⟩
  · rw [fileHeadersFor, if_pos hId]
    have h := countP_le_one_erase_findIdx _ raw hcnt
    rcases hfind : raw.findIdx? (fun h => h.data.map asciiLower == "id".data) with _ | i <;>
      rw [hfind] at h <;> rw [hfind] <;> exact congrArg ("id" :: ·) h
  · intro k x hk
    obtain ⟨src, hsrc, hx⟩ := hids k x hk
    refine ⟨src, hsrc, ?_⟩
    rw [hx]
    congr 2
    show 1 + k = k + 1
    omega
  · apply List.ext_getElem?
    intro k
    rcases hx : (processRows cfg raw rows)[k]? with _ | x
    · have hk : (processRows cfg raw rows).length ≤ k := by
        simpa using List.getElem?_eq_none_iff.mp hx
      rw [List.getElem?_map, hx, List.getElem?_map,
        List.getElem?_eq_none (by simpa using hk)]
      rfl
    · have hklt : k < (processRows cfg raw rows).length := by
        by_contra hge
        rw [List.getElem?_eq_none (by omega)] at hx
        exact Option.noConfusion hx
      obtain ⟨src, _, hxeq⟩ := hids k x hx
      rw [List.getElem?_map, hx, List.getElem?_map, List.getElem?_range hklt]
      simp [hxeq, Nat.add_comm]

/-- Witness for C1 at a concrete run: one source id column, three rows, one
dropped as empty; ids are regenerated 1, 2 and the original id values 7, 8, 9
are gone. -/
theorem generateId_spec_witness :
    cfgGenId.generateId = true ∧
      processRows cfgGenId ["id", "name"] [["7", "ann"], ["8", ""], ["9", "bob"]] =
        [["1", "ann"], ["2", "bob"]] ∧
      fileHeadersFor cfgGenId ["id", "name"] =
        "id" :: (["id", "name"].filter fun h => !(h.data.map asciiLower == "id".data)) := by
  refine ⟨rfl, by decide,
    (generateId_spec cfgGenId ["id", "name"]
      [["7", "ann"], ["8", ""], ["9", "bob"]] rfl (by decide)).1⟩

/-! ## C3 amended: first-occurrence survival without fuzzy dedup -/

theorem runRows_dedup_refines (cfg : CleaningConfig) (raw : List String)
    (hd : cfg.removeDuplicates = true) (hf : cfg.fuzzyDuplicates = false) :
    ∀ (rows : List (List String)) (seen fz : List String) (k : ℕ),
      runRows cfg raw ⟨seen, fz, k⟩ rows =
        assembleAll cfg raw k
          (keepFirstByKey (dedupeKey (sourceIdIdx cfg raw)) seen
            ((rows.map (prepRow cfg raw)).filter (passesFilters cfg))) := by
  intro rows
  induction rows with
  | nil => intro seen fz k; simp [runRows, keepFirstByKey, assembleAll]
  | cons r0 rs ih =>
    intro seen fz k
    rw [List.map_cons, List.filter_cons]
    by_cases h1 : cfg.removeEmpty && allBlank (prepRow cfg raw r0)
    · have hpass : passesFilters cfg (prepRow cfg raw r0) = false := by
        simp [passesFilters, h1]
      rw [hpass]
      simp only [Bool.false_eq_true, if_false]
      rw [show runRows cfg raw ⟨seen, fz, k⟩ (r0 :: rs) = runRows cfg raw ⟨seen, fz, k⟩ rs by
        rw [runRows]
        simp only [prepRow] at h1
        rw [if_pos h1]]
      exact ih seen fz k
    · by_cases h2 : cfg.removeRowsWithEmptyValues && anyBlank (prepRow cfg raw r0)
      · have hpass : passesFilters cfg (prepRow cfg raw r0) = false := by
          simp [passesFilters, h2]
        rw [hpass]
        simp only [Bool.false_eq_true, if_false]
        rw [show runRows cfg raw ⟨seen, fz, k⟩ (r0 :: rs) = runRows cfg raw ⟨seen, fz, k⟩ rs by
          rw [runRows]
          simp only [prepRow] at h1 h2
          rw [if_neg (by simp [h1]), if_pos h2]]
        exact ih seen fz k
      · have hpass : passesFilters cfg (prepRow cfg raw r0) = true := by
          simp only [passesFilters, h1, h2, Bool.not_false, Bool.and_self]
        rw [hpass]
        simp only [if_true]
        rw [keepFirstByKey]
        by_cases hkey : seen.contains (dedupeKey (sourceIdIdx cfg raw) (prepRow cfg raw r0))
        · rw [if_pos hkey]
          rw [show runRows cfg raw ⟨seen, fz, k⟩ (r0 :: rs) = runRows cfg raw ⟨seen, fz, k⟩ rs by
            rw [runRows]
            simp only [prepRow] at h1 h2 hkey
            rw [if_neg (by simp [h1]), if_neg (by simp [h2]),
              if_pos (by simp only [hd, Bool.true_and]; exact hkey)]]
          exact ih seen fz k
        · rw [if_neg hkey]
          rw [show runRows cfg raw ⟨seen, fz, k⟩ (r0 :: rs) =
              assembleRow cfg raw k (prepRow cfg raw r0) ::
                runRows cfg raw
                  ⟨dedupeKey (sourceIdIdx cfg raw) (prepRow cfg raw r0) :: seen, fz,
                    if cfg.generateId then k + 1 else k⟩ rs by
            rw [runRows]
            simp only [prepRow] at h1 h2 hkey ⊢
            rw [if_neg (by simp [h1]), if_neg (by simp [h2])]
            rw [if_neg (by simp only [hd, Bool.true_and]; exact hkey), if_pos hd]
            rw [if_neg (by simp [hf])]
            simp only [hf, Bool.false_eq_true, if_false]]
          rw [assembleAll]
          rcases hgen : cfg.generateId with _ | _
          · simp only [Bool.false_eq_true, if_false]
            exact congrArg _ (ih _ fz k)
          · simp only [if_true]
            exact congrArg _ (ih _ fz (k + 1))

theorem keepFirstByKey_key_not_seen (key : List String → String) :
    ∀ (l : List (List String)) (seen : List String) (r : List String),
      r ∈ keepFirstByKey key seen l → ¬(key r ∈ seen) := by
  intro l
  induction l with
  | nil => intro seen r h; simp [keepFirstByKey] at h
  | cons r0 rs ih =>
    intro seen r h
    rw [keepFirstByKey] at h
    split at h
    · exact ih seen r h
    · rcases List.mem_cons.mp h with rfl | h
      · rename_i hnot
        intro hmem
        exact hnot (by simpa using hmem)
      · intro hmem
        exact ih _ r h (List.mem_cons_of_mem _ hmem)

theorem keepFirstByKey_pairwise (key : List String → String) :
    ∀ (l : List (List String)) (seen : List String),
      (keepFirstByKey key seen l).Pairwise fun a b => key a ≠ key b := by
  intro l
  induction l with
  | nil => intro seen; simp [keepFirstByKey]
  | cons r0 rs ih =>
    intro seen
    rw [keepFirstByKey]
    split
    · exact ih seen
    · refine List.Pairwise.cons ?_ (ih _)
      intro b hb heq
      have := keepFirstByKey_key_not_seen key rs _ b hb
      exact this (heq ▸ List.mem_cons_self ..)

theorem keepFirstByKey_covers (key : List String → String) :
    ∀ (l : List (List String)) (seen : List String) (r : List String),
      r ∈ l → key r ∈ seen ∨ key r ∈ (keepFirstByKey key seen l).map key := by
  intro l
  induction l with
  | nil => intro seen r h; simp at h
  | cons r0 rs ih =>
    intro seen r h
    rw [keepFirstByKey]
    rcases List.mem_cons.mp h with rfl | h
    · by_cases hc : seen.contains (key r)
      · exact Or.inl (by simpa using hc)
      · rw [if_neg hc]
        exact Or.inr (by simp)
    · by_cases hc : seen.contains (key r0)
      · rw [if_pos hc]
        exact ih seen r h
      · rw [if_neg hc]
        rcases ih (key r0 :: seen) r h with hmem | hmem
        · rcases List.mem_cons.mp hmem with heq | hmem
          · exact Or.inr (by simp [heq])
          · exact Or.inl hmem
        · exact Or.inr (List.mem_cons_of_mem _ hmem)

theorem keepFirstByKey_sublist (key : List String → String) :
    ∀ (l : List (List String)) (seen : List String),
      (keepFirstByKey key seen l).Sublist l := by
  intro l
  induction l with
  | nil => intro seen; simp [keepFirstByKey]
  | cons r0 rs ih =>
    intro seen
    rw [keepFirstByKey]
    split
    · exact (ih seen).cons _
    · exact (ih _).cons₂ _

/-- C3 amended: with exact dedup enabled and fuzzy dedup disabled, the row
stage equals: keep, among the filter-passing transformed rows, exactly the
first occurrence of each exact-dedup key (all cells except the source-id
slot), then assemble those survivors in order — so of any two processed rows
that agree in every position except the source-id slot, exactly one survives,
namely the one processed first.  (With fuzzy dedup also enabled both can be
dropped; see the counterexample.) -/
theorem exact_dedup_first_survives (cfg : CleaningConfig) (raw : List String)
    (rows : List (List String)) (hd : cfg.removeDuplicates = true)
    (hf : cfg.fuzzyDuplicates = false) :
    processRows cfg raw rows =
        assembleAll cfg raw 1
          (keepFirstByKey (dedupeKey (sourceIdIdx cfg raw)) []
            ((rows.map (prepRow cfg raw)).filter (passesFilters cfg))) ∧
      (keepFirstByKey (dedupeKey (sourceIdIdx cfg raw)) []
          ((rows.map (prepRow cfg raw)).filter (passesFilters cfg))).Pairwise
        (fun a b => dedupeKey (sourceIdIdx cfg raw) a ≠ dedupeKey (sourceIdIdx cfg raw) b) ∧
      (keepFirstByKey (dedupeKey (sourceIdIdx cfg raw)) []
          ((rows.map (prepRow cfg raw)).filter (passesFilters cfg))).Sublist
        ((rows.map (prepRow cfg raw)).filter (passesFilters cfg)) ∧
      ∀ r ∈ (rows.map (prepRow cfg raw)).filter (passesFilters cfg),
        dedupeKey (sourceIdIdx cfg raw) r ∈
          (keepFirstByKey (dedupeKey (sourceIdIdx cfg raw)) []
            ((rows.map (prepRow cfg raw)).filter (passesFilters cfg))).map
            (dedupeKey (sourceIdIdx cfg raw)) := by
  refine ⟨runRows_dedup_refines cfg raw hd hf rows [] [] 1, keepFirstByKey_pairwise _ _ _,
    keepFirstByKey_sublist _ _ _, ?_⟩
  intro r hr
  rcases keepFirstByKey_covers _ _ [] r hr with h | h
  · simp at h
  · exact h

/-- Witness for C3 amended at a concrete run: rows 1 and 2 agree except in the
id slot, only the first survives. -/
theorem exact_dedup_first_survives_witness :
    cfgDedupOnly.removeDuplicates = true ∧ cfgDedupOnly.fuzzyDuplicates = false ∧
      processRows cfgDedupOnly ["id", "name"] [["1", "a"], ["2", "a"], ["3", "b"]] =
        assembleAll cfgDedupOnly ["id", "name"] 1
          (keepFirstByKey (dedupeKey (sourceIdIdx cfgDedupOnly ["id", "name"])) []
            (([["1", "a"], ["2", "a"], ["3", "b"]].map
                (prepRow cfgDedupOnly ["id", "name"])).filter
              (passesFilters cfgDedupOnly))) ∧
      processRows cfgDedupOnly ["id", "name"] [["1", "a"], ["2", "a"], ["3", "b"]] =
        [["1", "a"], ["2", "b"]] :=
  ⟨rfl, rfl,
    (exact_dedup_first_survives cfgDedupOnly ["id", "name"]
      [["1", "a"], ["2", "a"], ["3", "b"]] rfl rfl).1,
    by decide⟩

/-! ## C6 amended: the 70% threshold is strict against the IEEE product -/

set_option maxRecDepth 4000 in
/-- For every sample size the engine can pass (at most 500 rows), ten times
the IEEE product `n * 0.7` stays strictly below `(7n+1) · 2⁵³`. -/
theorem jsTimes07_lt_bound :
    ∀ n ∈ List.range 501, 10 * jsTimes07scaled n < (7 * n + 1) * 2 ^ 53 := by
  decide

set_option maxRecDepth 4000 in
/-- For every sample size the engine can pass, ten times the IEEE product
`n * 0.7` stays at or above `(7n-1) · 2⁵³`. -/
theorem jsTimes07_ge_bound :
    ∀ n ∈ List.range 501, (7 * n - 1) * 2 ^ 53 ≤ 10 * jsTimes07scaled n := by
  decide

/-- A count strictly above the exact 70% mark passes the threshold test. -/
theorem above70pct_of_strict (count n : ℕ) (hn : n ≤ 500) (h : 7 * n < 10 * count) :
    above70pct count n = true := by
  have hb := jsTimes07_lt_bound n (List.mem_range.mpr (by omega))
  rw [above70pct, decide_eq_true_eq]
  have h2 : 10 * jsTimes07scaled n < 10 * (count * 2 ^ 53) := by
    calc 10 * jsTimes07scaled n < (7 * n + 1) * 2 ^ 53 := hb
      _ ≤ (10 * count) * 2 ^ 53 := Nat.mul_le_mul_right _ (by omega)
      _ = 10 * (count * 2 ^ 53) := by ring
  exact Nat.lt_of_mul_lt_mul_left h2

/-- A count strictly below the exact 70% mark fails the threshold test. -/
theorem above70pct_of_below (count n : ℕ) (hn : n ≤ 500) (h : 10 * count < 7 * n) :
    above70pct count n = false := by
  have hb := jsTimes07_ge_bound n (List.mem_range.mpr (by omega))
  rw [above70pct, decide_eq_false_iff_not, not_lt]
  have h2 : 10 * (count * 2 ^ 53) ≤ 10 * jsTimes07scaled n := by
    calc 10 * (count * 2 ^ 53) = (10 * count) * 2 ^ 53 := by ring
      _ ≤ (7 * n - 1) * 2 ^ 53 := Nat.mul_le_mul_right _ (by omega)
      _ ≤ 10 * jsTimes07scaled n := hb
  exact Nat.le_of_mul_le_mul_left h2 (by norm_num)

/-- C6 (amended). In type inference, for a sample (at most the 500 rows the
engine passes) that is neither all-integer, all-decimal nor all-boolean
shaped: if STRICTLY more than 70% of the values are valid dates the column is
classified 'date', and if the date share is strictly below 70% while the email
share is strictly above it the column is classified 'email'.  The comparison
is the strict `count > len * 0.7` against the IEEE double product, so at
exactly 70% the outcome follows the rounding of `len * 0.7`: for a 10-value
sample the product `10 * 0.7 = 7` is exact and 7 dates do NOT pass, while for
a 90-value sample `90 * 0.7` rounds below 63 and 63 dates DO pass. -/
theorem type_inference_threshold_strict (values : List String)
    (hlen : values.length ≤ 500)
    (hne : values ≠ [])
    (hint : values.all (fun v => intShaped v.data) = false)
    (hdec : values.all (fun v => decShaped v.data) = false)
    (hbool : values.all boolShaped = false) :
    (7 * values.length < 10 * (values.filter fun v => isValidDate v).length →
        classifyValues values = "date") ∧
      (10 * (values.filter fun v => isValidDate v).length < 7 * values.length →
        7 * values.length < 10 * (values.filter looksLikeEmail).length →
        classifyValues values = "email") ∧
      above70pct 7 10 = false ∧ above70pct 63 90 = true := by
  have hemp : values.isEmpty = false := by
    rcases values with _ | ⟨v, vs⟩
    · exact absurd rfl hne
    · rfl
  refine ⟨?_, ?_, by decide, by decide⟩
  · intro hd
    rw [classifyValues, if_neg (by simp [hemp]), if_neg (by simp [hint]),
      if_neg (by simp [hdec]), if_neg (by simp [hbool]),
      if_pos (above70pct_of_strict _ _ hlen hd)]
  · intro hd he
    rw [classifyValues, if_neg (by simp [hemp]), if_neg (by simp [hint]),
      if_neg (by simp [hdec]), if_neg (by simp [hbool]),
      if_neg (by simp [above70pct_of_below _ _ hlen hd]),
      if_pos (above70pct_of_strict _ _ hlen he)]

/-- Witness for C6 amended at a concrete sample: eight ISO dates and two
non-dates (an 80% share) classify as 'date'. -/
theorem type_inference_threshold_strict_witness :
    classifyValues (List.replicate 8 ("2020-01-01" : String) ++
        List.replicate 2 "hello") = "date" :=
  (type_inference_threshold_strict
      (List.replicate 8 ("2020-01-01" : String) ++ List.replicate 2 "hello")
      (by decide) (by decide) (by decide) (by decide) (by decide)).1 (by decide)

/-! ## C7 amended: progress is monotone within each phase -/

/-- C7 (amended). Within each phase the progress percents are monotone in the
offset, and the phases sit in their documented bands: the read phase reports
values in `[0, 50]` that are non-decreasing as the read offset grows, the
processing phase reports values at or above 50 that are non-decreasing in the
offset, and the final reports are 85 then 100.  Monotonicity can still break
at phase boundaries (a processing report followed by the next chunk's read
report, or the last processing report followed by 85 — see the
counterexample), but never inside a phase. -/
theorem progress_monotone_within_phases (size o1 o2 : ℚ)
    (hs : 0 < size) (h0 : 0 ≤ o1) (h12 : o1 ≤ o2) :
    readPercent o1 size ≤ readPercent o2 size ∧
      procPercent o1 size ≤ procPercent o2 size ∧
      0 ≤ readPercent o1 size ∧ readPercent o1 size ≤ 50 ∧
      50 ≤ procPercent o1 size ∧ (85 : ℚ) ≤ 100 := by
  have hmul : o1 / size * 50 ≤ o2 / size * 50 := by gcongr
  have hnn : (0 : ℚ) ≤ o1 / size := div_nonneg h0 hs.le
  refine ⟨?_, ?_, ?_, ?_, ?_, by norm_num⟩
  · rw [readPercent, readPercent]
    split_ifs <;> linarith
  · rw [procPercent, procPercent]
    have : o1 / size * 30 ≤ o2 / size * 30 := by gcongr
    linarith
  · rw [readPercent]
    split_ifs <;> nlinarith
  · rw [readPercent]
    split_ifs <;> linarith
  · rw [procPercent]
    nlinarith

/-- Witness for C7 amended at a concrete size and offset pair. -/
theorem progress_monotone_within_phases_witness :
    readPercent 1 2 ≤ readPercent 2 2 ∧ procPercent 1 2 ≤ procPercent 2 2 ∧
      0 ≤ readPercent 1 2 ∧ readPercent 1 2 ≤ 50 ∧
      50 ≤ procPercent 1 2 ∧ (85 : ℚ) ≤ 100 :=
  progress_monotone_within_phases 2 1 2 (by norm_num) (by norm_num) (by norm_num)

/-! ## C8 amended: helper lemmas for the idempotence analysis -/

theorem mk_cons_ne_empty (c : Char) (l : List Char) : (⟨c :: l⟩ : String) ≠ "" := by
  intro h
  have := congrArg String.data h
  simp at this

theorem filter_eq_self_of_all {p : Char → Bool} {l : List Char}
    (h : ∀ c ∈ l, p c = true) : l.filter p = l :=
  List.filter_eq_self.mpr h

theorem all_isDigit_filter (l : List Char) :
    ∀ c ∈ l.filter Char.isDigit, c.isDigit = true := by
  intro c hc
  exact List.of_mem_filter hc

/-- Control-character stripping is idempotent: a second filter pass removes
nothing. -/
theorem removeSpecialCharsFn_idem (s : String) :
    removeSpecialCharsFn (removeSpecialCharsFn s) = removeSpecialCharsFn s := by
  by_cases h : s = ""
  · subst h; rfl
  · have hinner : removeSpecialCharsFn s =
        ⟨s.data.filter fun c => !isControlStripped c⟩ := by
      rw [removeSpecialCharsFn, if_neg h]
    rw [hinner]
    by_cases h2 : (⟨s.data.filter fun c => !isControlStripped c⟩ : String) = ""
    · rw [removeSpecialCharsFn, if_pos h2]
    · rw [removeSpecialCharsFn, if_neg h2, data_mk, List.filter_filter]
      congr 1
      apply List.filter_congr
      intro c _
      simp

theorem digits_take_filter (ds : List Char) (hds : ∀ c ∈ ds, c.isDigit = true) (n : ℕ) :
    (ds.take n).filter Char.isDigit = ds.take n :=
  filter_eq_self_of_all fun c hc => hds c (List.mem_of_mem_take hc)

theorem digits_drop_filter (ds : List Char) (hds : ∀ c ∈ ds, c.isDigit = true) (n : ℕ) :
    (ds.drop n).filter Char.isDigit = ds.drop n :=
  filter_eq_self_of_all fun c hc => hds c (List.mem_of_mem_drop hc)

/-- The digits of the ten-digit format `(abc) def-ghij` are the ten digits. -/
theorem digits_format10 (ds : List Char) (hds : ∀ c ∈ ds, c.isDigit = true) :
    ('(' :: ds.take 3 ++ [')', ' '] ++ (ds.drop 3).take 3 ++ '-' :: ds.drop 6).filter
        Char.isDigit = ds := by
  have h1 := digits_take_filter ds hds 3
  have h2 := digits_take_filter (ds.drop 3) (fun c hc => hds c (List.mem_of_mem_drop hc)) 3
  have h3 := digits_drop_filter ds hds 6
  have h6 : List.drop 6 ds = List.drop 3 (List.drop 3 ds) := (List.drop_drop 3 3 ds).symm
  rw [h6] at h3
  simp only [List.filter_append, List.filter_cons, List.filter_nil,
    show '('.isDigit = false by decide, show ')'.isDigit = false by decide,
    show ' '.isDigit = false by decide, show '-'.isDigit = false by decide,
    Bool.false_eq_true, if_false, h1, h2, h3, h6, List.append_nil, List.nil_append,
    List.append_assoc, List.cons_append]
  simp
  rw [h6, List.take_append_drop, List.take_append_drop]

/-- The digits of the `+1 (bcd) efg-hijk` format are the eleven digits. -/
theorem digits_format11 (ds : List Char) (hds : ∀ c ∈ ds, c.isDigit = true)
    (hne : ds ≠ []) (hhead : ds.headD ' ' = '1') :
    ('+' :: '1' :: ' ' :: '(' :: (ds.drop 1).take 3 ++ [')', ' '] ++
        (ds.drop 4).take 3 ++ '-' :: ds.drop 7).filter Char.isDigit = ds := by
  rcases ds with _ | ⟨c, t⟩
  · exact absurd rfl hne
  simp only [List.headD_cons] at hhead
  subst hhead
  have hdt : ∀ c ∈ t, c.isDigit = true := fun c hc => hds c (List.mem_cons_of_mem _ hc)
  have h1 := digits_take_filter t hdt 3
  have h2 := digits_take_filter (t.drop 3) (fun c hc => hdt c (List.mem_of_mem_drop hc)) 3
  have h3 := digits_drop_filter t hdt 6
  have e4 : List.drop 4 ('1' :: t) = List.drop 3 t := rfl
  have e7 : List.drop 7 ('1' :: t) = List.drop 3 (List.drop 3 t) := by
    show List.drop 6 t = _
    exact (List.drop_drop 3 3 t).symm
  have h3' : (List.drop 3 (List.drop 3 t)).filter Char.isDigit =
      List.drop 3 (List.drop 3 t) := by
    rw [← List.drop_drop 3 3 t] at h3
    exact h3
  simp only [e4, e7, List.drop_succ_cons, List.drop_zero]
  simp only [List.filter_append, List.filter_cons, List.filter_nil,
    show '('.isDigit = false by decide, show ')'.isDigit = false by decide,
    show ' '.isDigit = false by decide, show '-'.isDigit = false by decide,
    show '+'.isDigit = false by decide, show '1'.isDigit = true by decide,
    Bool.false_eq_true, if_false, if_true, h1, h2, h3', List.append_nil, List.nil_append,
    List.append_assoc, List.cons_append]
  simp
  rw [show List.drop 6 t = List.drop 3 (List.drop 3 t) from (List.drop_drop 3 3 t).symm,
    List.take_append_drop, List.take_append_drop]

/-- The digits of the `+cc (abc) def-ghij` format are the original digits. -/
theorem digits_format_cc (ds : List Char) (hds : ∀ c ∈ ds, c.isDigit = true) :
    ('+' :: ds.take (ds.length - 10) ++ ' ' :: '(' :: (ds.drop (ds.length - 10)).take 3 ++
        [')', ' '] ++ ((ds.drop (ds.length - 10)).drop 3).take 3 ++
        '-' :: (ds.drop (ds.length - 10)).drop 6).filter Char.isDigit = ds := by
  have h0 := digits_take_filter ds hds (ds.length - 10)
  have hrest : ∀ c ∈ ds.drop (ds.length - 10), c.isDigit = true :=
    fun c hc => hds c (List.mem_of_mem_drop hc)
  have h1 := digits_take_filter (ds.drop (ds.length - 10)) hrest 3
  have h2 := digits_take_filter ((ds.drop (ds.length - 10)).drop 3)
    (fun c hc => hrest c (List.mem_of_mem_drop hc)) 3
  have h3 := digits_drop_filter (ds.drop (ds.length - 10)) hrest 6
  have h6 : (ds.drop (ds.length - 10)).drop 6 =
      ((ds.drop (ds.length - 10)).drop 3).drop 3 := (List.drop_drop 3 3 _).symm
  rw [h6] at h3
  simp only [h6, List.filter_append, List.filter_cons, List.filter_nil,
    show '('.isDigit = false by decide, show ')'.isDigit = false by decide,
    show ' '.isDigit = false by decide, show '-'.isDigit = false by decide,
    show '+'.isDigit = false by decide,
    Bool.false_eq_true, if_false, h0, h1, h2, h3, List.append_nil, List.nil_append,
    List.append_assoc, List.cons_append]
  simp

theorem phone_eq10 (s : String) (h : ¬ s = "")
    (h10 : (s.data.filter Char.isDigit).length = 10) :
    standardizePhoneFn s =
      ⟨'(' :: (s.data.filter Char.isDigit).take 3 ++ [')', ' '] ++
        ((s.data.filter Char.isDigit).drop 3).take 3 ++
        '-' :: (s.data.filter Char.isDigit).drop 6⟩ := by
  rw [standardizePhoneFn, if_neg h]
  show (if (s.data.filter Char.isDigit).length = 10 then _ else _) = _
  rw [if_pos h10]

theorem phone_eq11 (s : String) (h : ¬ s = "")
    (h10 : ¬ (s.data.filter Char.isDigit).length = 10)
    (h11 : (s.data.filter Char.isDigit).length = 11 ∧
      (s.data.filter Char.isDigit).headD ' ' = '1') :
    standardizePhoneFn s =
      ⟨'+' :: '1' :: ' ' :: '(' :: ((s.data.filter Char.isDigit).drop 1).take 3 ++
        [')', ' '] ++ ((s.data.filter Char.isDigit).drop 4).take 3 ++
        '-' :: (s.data.filter Char.isDigit).drop 7⟩ := by
  rw [standardizePhoneFn, if_neg h]
  show (if (s.data.filter Char.isDigit).length = 10 then _ else _) = _
  rw [if_neg h10, if_pos h11]

theorem phone_eqcc (s : String) (h : ¬ s = "")
    (h10 : ¬ (s.data.filter Char.isDigit).length = 10)
    (h11 : ¬ ((s.data.filter Char.isDigit).length = 11 ∧
      (s.data.filter Char.isDigit).headD ' ' = '1'))
    (hge : 11 ≤ (s.data.filter Char.isDigit).length) :
    standardizePhoneFn s =
      ⟨'+' :: (s.data.filter Char.isDigit).take ((s.data.filter Char.isDigit).length - 10) ++
        ' ' :: '(' ::
        ((s.data.filter Char.isDigit).drop ((s.data.filter Char.isDigit).length - 10)).take 3 ++
        [')', ' '] ++
        (((s.data.filter Char.isDigit).drop
          ((s.data.filter Char.isDigit).length - 10)).drop 3).take 3 ++
        '-' :: ((s.data.filter Char.isDigit).drop
          ((s.data.filter Char.isDigit).length - 10)).drop 6⟩ := by
  rw [standardizePhoneFn, if_neg h]
  show (if (s.data.filter Char.isDigit).length = 10 then _ else _) = _
  rw [if_neg h10, if_neg h11, if_pos hge]

theorem phone_eq_self (s : String)
    (h10 : ¬ (s.data.filter Char.isDigit).length = 10)
    (h11 : ¬ ((s.data.filter Char.isDigit).length = 11 ∧
      (s.data.filter Char.isDigit).headD ' ' = '1'))
    (hge : ¬ 11 ≤ (s.data.filter Char.isDigit).length) :
    standardizePhoneFn s = s := by
  by_cases h : s = ""
  · rw [standardizePhoneFn, if_pos h]
  · rw [standardizePhoneFn, if_neg h]
    show (if (s.data.filter Char.isDigit).length = 10 then _ else _) = _
    rw [if_neg h10, if_neg h11, if_neg hge]

/-- Phone formatting is idempotent: each formatted shape re-enters the branch
that produced it (the digit sequence is unchanged by the decoration), and the
fall-through branch returns its input. -/
theorem standardizePhoneFn_idem (s : String) :
    standardizePhoneFn (standardizePhoneFn s) = standardizePhoneFn s := by
  by_cases h : s = ""
  · subst h; rfl
  · have hds := all_isDigit_filter s.data
    by_cases h10 : (s.data.filter Char.isDigit).length = 10
    · rw [phone_eq10 s h h10]
      set r : String := ⟨'(' :: (s.data.filter Char.isDigit).take 3 ++ [')', ' '] ++
          ((s.data.filter Char.isDigit).drop 3).take 3 ++
          '-' :: (s.data.filter Char.isDigit).drop 6⟩ with hrdef
      have hd2 : r.data.filter Char.isDigit = s.data.filter Char.isDigit := by
        rw [hrdef]; exact digits_format10 _ hds
      rw [phone_eq10 r (by rw [hrdef]; exact mk_cons_ne_empty _ _)
        (by rw [hd2]; exact h10), hd2]
    · by_cases h11 : (s.data.filter Char.isDigit).length = 11 ∧
          (s.data.filter Char.isDigit).headD ' ' = '1'
      · have hne : s.data.filter Char.isDigit ≠ [] := by
          intro hnil
          rw [hnil] at h11
          simp at h11
        rw [phone_eq11 s h h10 h11]
        set r : String := ⟨'+' :: '1' :: ' ' :: '(' ::
            ((s.data.filter Char.isDigit).drop 1).take 3 ++ [')', ' '] ++
            ((s.data.filter Char.isDigit).drop 4).take 3 ++
            '-' :: (s.data.filter Char.isDigit).drop 7⟩ with hrdef
        have hd2 : r.data.filter Char.isDigit = s.data.filter Char.isDigit := by
          rw [hrdef]; exact digits_format11 _ hds hne h11.2
        rw [phone_eq11 r (by rw [hrdef]; exact mk_cons_ne_empty _ _)
          (by rw [hd2]; exact h10) (by rw [hd2]; exact h11), hd2]
      · by_cases hge : 11 ≤ (s.data.filter Char.isDigit).length
        · rw [phone_eqcc s h h10 h11 hge]
          set r : String := ⟨'+' ::
              (s.data.filter Char.isDigit).take ((s.data.filter Char.isDigit).length - 10) ++
              ' ' :: '(' :: ((s.data.filter Char.isDigit).drop
                ((s.data.filter Char.isDigit).length - 10)).take 3 ++ [')', ' '] ++
              (((s.data.filter Char.isDigit).drop
                ((s.data.filter Char.isDigit).length - 10)).drop 3).take 3 ++
              '-' :: ((s.data.filter Char.isDigit).drop
                ((s.data.filter Char.isDigit).length - 10)).drop 6⟩ with hrdef
          have hd2 : r.data.filter Char.isDigit = s.data.filter Char.isDigit := by
            rw [hrdef]; exact digits_format_cc _ hds
          rw [phone_eqcc r (by rw [hrdef]; exact mk_cons_ne_empty _ _)
            (by rw [hd2]; exact h10) (by rw [hd2]; exact h11) (by rw [hd2]; exact hge), hd2]
        · rw [phone_eq_self s h10 h11 hge, phone_eq_self s h10 h11 hge]

/-! helper lemmas on `splitChar`, trimming and the thousands pattern -/

theorem splitChar_ne_nil (sep : Char) (cs : List Char) : splitChar sep cs ≠ [] := by
  induction cs with
  | nil => simp [splitChar]
  | cons c s ih =>
    rw [splitChar]
    split
    · simp
    · rcases h : splitChar sep s with _ | ⟨p, ps⟩
      · simp
      · simp

theorem splitChar_mem (sep : Char) :
    ∀ (cs : List Char), ∀ g ∈ splitChar sep cs, ∀ c ∈ g, c ∈ cs ∧ ¬ c = sep := by
  intro cs
  induction cs with
  | nil => intro g hg c hc; simp [splitChar] at hg; subst hg; simp at hc
  | cons d s ih =>
    intro g hg c hc
    rw [splitChar] at hg
    by_cases hd : d = sep
    · rw [if_pos hd] at hg
      rcases List.mem_cons.mp hg with rfl | hg
      · simp at hc
      · obtain ⟨h1, h2⟩ := ih g hg c hc
        exact ⟨List.mem_cons_of_mem _ h1, h2⟩
    · rw [if_neg hd] at hg
      rcases hsp : splitChar sep s with _ | ⟨p, ps⟩
      · exact absurd hsp (splitChar_ne_nil sep s)
      · rw [hsp] at hg
        rcases List.mem_cons.mp hg with rfl | hg
        · rcases List.mem_cons.mp hc with rfl | hc
          · exact ⟨List.mem_cons_self .., hd⟩
          · obtain ⟨h1, h2⟩ := ih p (hsp ▸ List.mem_cons_self ..) c hc
            exact ⟨List.mem_cons_of_mem _ h1, h2⟩
        · obtain ⟨h1, h2⟩ := ih g (hsp ▸ List.mem_cons_of_mem _ hg) c hc
          exact ⟨List.mem_cons_of_mem _ h1, h2⟩

theorem mem_splitChar_of_mem (sep : Char) :
    ∀ (cs : List Char), ∀ c ∈ cs, c = sep ∨ ∃ g ∈ splitChar sep cs, c ∈ g := by
  intro cs
  induction cs with
  | nil => intro c hc; simp at hc
  | cons d s ih =>
    intro c hc
    rw [splitChar]
    by_cases hd : d = sep
    · rw [if_pos hd]
      rcases List.mem_cons.mp hc with rfl | hc
      · exact Or.inl hd
      · rcases ih c hc with h | ⟨g, hg, hcg⟩
        · exact Or.inl h
        · exact Or.inr ⟨g, List.mem_cons_of_mem _ hg, hcg⟩
    · rw [if_neg hd]
      rcases hsp : splitChar sep s with _ | ⟨p, ps⟩
      · exact absurd hsp (splitChar_ne_nil sep s)
      · rcases List.mem_cons.mp hc with rfl | hc
        · exact Or.inr ⟨c :: p, List.mem_cons_self .., List.mem_cons_self ..⟩
        · rcases ih c hc with h | ⟨g, hg, hcg⟩
          · exact Or.inl h
          · rw [hsp] at hg
            rcases List.mem_cons.mp hg with rfl | hg
            · exact Or.inr ⟨d :: g, List.mem_cons_self .., List.mem_cons_of_mem _ hcg⟩
            · exact Or.inr ⟨g, List.mem_cons_of_mem _ hg, hcg⟩

theorem splitChar_of_not_mem (sep : Char) :
    ∀ (cs : List Char), sep ∉ cs → splitChar sep cs = [cs] := by
  intro cs
  induction cs with
  | nil => intro _; rfl
  | cons d s ih =>
    intro h
    rw [splitChar, if_neg (by intro he; exact h (he ▸ List.mem_cons_self ..)),
      ih fun hm => h (List.mem_cons_of_mem _ hm)]

theorem jsTrimL_eq_self_of_all (l : List Char) (h : ∀ c ∈ l, isJsSpace c = false) :
    jsTrimL l = l := by
  have hdrop : ∀ (m : List Char), (∀ c ∈ m, isJsSpace c = false) →
      m.dropWhile isJsSpace = m := by
    intro m hm
    rcases m with _ | ⟨c, t⟩
    · rfl
    · rw [List.dropWhile_cons, if_neg (by simp [hm c (List.mem_cons_self ..)])]
  rw [jsTrimL, hdrop l h, trimEndJs,
    hdrop l.reverse fun c hc => h c (List.mem_reverse.mp hc), List.reverse_reverse]

theorem thousandsPat_mem (cs : List Char) (hp : thousandsPat cs = true) :
    ∀ c ∈ cs, c.isDigit = true ∨ c = ',' ∨ c = '.' := by
  intro c hc
  rcases hsp : splitChar ',' cs with _ | ⟨g, gs⟩
  · exact absurd hsp (splitChar_ne_nil ',' cs)
  rw [thousandsPat, hsp] at hp
  simp only [Bool.and_eq_true, Bool.not_eq_true'] at hp
  obtain ⟨⟨⟨hg, hgs⟩, hmid⟩, hlast⟩ := hp
  rcases mem_splitChar_of_mem ',' cs c hc with rfl | ⟨g', hg', hcg⟩
  · exact Or.inr (Or.inl rfl)
  rw [hsp] at hg'
  have hgsne : gs ≠ [] := by simpa [List.isEmpty_iff] using hgs
  rcases List.mem_cons.mp hg' with rfl | hmem
  · -- the leading group is a digit run
    have := (List.all_eq_true.mp (by
      simp only [digitRun, Bool.and_eq_true] at hg
      exact hg.1.1)) c hcg
    exact Or.inl this
  · -- a later group: middle or last
    have hsplit := (List.dropLast_concat_getLast hgsne).symm
    rw [hsplit] at hmem
    rcases List.mem_append.mp hmem with hmid' | hlast'
    · have hdr := List.all_eq_true.mp hmid _ hmid'
      simp only [digitRun, Bool.and_eq_true] at hdr
      exact Or.inl (List.all_eq_true.mp hdr.1.1 c hcg)
    · have hgl : g' = gs.getLast hgsne := by simpa using hlast'
      rw [List.getLast?_eq_getLast gs hgsne] at hlast
      subst hgl
      rcases (Bool.or_eq_true _ _).mp hlast with hdr | hdot
      · simp only [digitRun, Bool.and_eq_true] at hdr
        exact Or.inl (List.all_eq_true.mp hdr.1.1 c hcg)
      · rcases hsp2 : splitChar '.' (gs.getLast hgsne) with _ | ⟨ip, ps2⟩
        · exact absurd hsp2 (splitChar_ne_nil _ _)
        rcases ps2 with _ | ⟨fp, ps3⟩
        · rw [hsp2] at hdot; simp at hdot
        rcases ps3 with _ | ⟨x, ps4⟩
        · -- the two-group shape
          rw [hsp2] at hdot
          simp only [Bool.and_eq_true] at hdot
          rcases mem_splitChar_of_mem '.' _ c hcg with rfl | ⟨h2, hh2, hch2⟩
          · exact Or.inr (Or.inr rfl)
          · rw [hsp2] at hh2
            rcases List.mem_cons.mp hh2 with rfl | hh2'
            · simp only [digitRun, Bool.and_eq_true] at hdot
              exact Or.inl (List.all_eq_true.mp hdot.1.1.1.1 c hch2)
            · have : h2 = fp := by simpa using hh2'
              subst this
              exact Or.inl (List.all_eq_true.mp hdot.2 c hch2)
        · rw [hsp2] at hdot; simp at hdot

theorem thousandsPat_has_comma (cs : List Char) (hp : thousandsPat cs = true) :
    ',' ∈ cs := by
  by_contra hnc
  rw [thousandsPat, splitChar_of_not_mem ',' cs hnc] at hp
  simp at hp

theorem thousandsPat_no_comma (cs : List Char) (hnc : ',' ∉ cs) :
    thousandsPat cs = false := by
  by_contra hp
  exact hnc (thousandsPat_has_comma cs (by simpa using hp))

theorem thousandsPat_has_digit (cs : List Char) (hp : thousandsPat cs = true) :
    ∃ c ∈ cs, c.isDigit = true ∧ ¬ c = ',' := by
  rcases hsp : splitChar ',' cs with _ | ⟨g, gs⟩
  · exact absurd hsp (splitChar_ne_nil ',' cs)
  rw [thousandsPat, hsp] at hp
  simp only [Bool.and_eq_true] at hp
  have hg := hp.1.1.1
  simp only [digitRun, Bool.and_eq_true, decide_eq_true_eq] at hg
  obtain ⟨⟨hall, hlen⟩, _⟩ := hg
  rcases g with _ | ⟨c, t⟩
  · simp at hlen
  · obtain ⟨hmem, hne⟩ := splitChar_mem ',' cs (c :: t) (hsp ▸ List.mem_cons_self ..)
      c (List.mem_cons_self ..)
    exact ⟨c, hmem, List.all_eq_true.mp hall c (List.mem_cons_self ..), hne⟩

theorem not_currency_of_digit_or_dot (c : Char) (h : c.isDigit = true ∨ c = '.') :
    (decide (c ∈ currencySyms)) = false := by
  rcases h with h | rfl
  · simp only [decide_eq_false_iff_not]
    intro hmem
    rw [currencySyms] at hmem
    simp only [List.mem_cons, List.not_mem_nil, or_false] at hmem
    rcases hmem with rfl | rfl | rfl | rfl | rfl <;> exact absurd h (by decide)
  · decide

theorem not_ws_of_digit_or_dot (c : Char) (h : c.isDigit = true ∨ c = '.') :
    isJsSpace c = false := by
  rcases h with h | rfl
  · rw [isJsSpace]
    simp only [decide_eq_false_iff_not]
    intro hmem
    simp only [List.mem_cons, List.not_mem_nil, or_false] at hmem
    rcases hmem with rfl | rfl | rfl | rfl | rfl | rfl | rfl | rfl | rfl | rfl | rfl | rfl |
      rfl | rfl | rfl | rfl | rfl | rfl | rfl | rfl | rfl | rfl | rfl | rfl | rfl <;>
      exact absurd h (by decide)
  · decide

theorem fixNumberFormat_idem (s : String) :
    fixNumberFormat (fixNumberFormat s) = fixNumberFormat s := by
  have key : ∀ t : String, ¬ t = "" →
      fixNumberFormat t =
        (if thousandsPat (jsTrimL (t.data.filter fun c => !(c ∈ currencySyms))) then
          (⟨(jsTrimL (t.data.filter fun c => !(c ∈ currencySyms))).filter (· ≠ ',')⟩ : String)
        else t) := by
    intro t ht
    rw [fixNumberFormat, if_neg ht]
  by_cases h : s = ""
  · subst h; rfl
  · rw [key s h]
    by_cases hp : thousandsPat (jsTrimL (s.data.filter fun c => !(c ∈ currencySyms)))
    · rw [if_pos hp]
      set cl := jsTrimL (s.data.filter fun c => !(c ∈ currencySyms)) with hcl
      have hmem : ∀ c ∈ cl, c.isDigit = true ∨ c = ',' ∨ c = '.' := thousandsPat_mem _ hp
      have hrmem : ∀ c ∈ cl.filter (· ≠ ','), c.isDigit = true ∨ c = '.' := by
        intro c hc
        have h1 := List.mem_of_mem_filter hc
        have h2 : ¬ c = ',' := by simpa using List.of_mem_filter hc
        rcases hmem c h1 with h3 | h3 | h3
        · exact Or.inl h3
        · exact absurd h3 h2
        · exact Or.inr h3
      have hne : cl.filter (· ≠ ',') ≠ [] := by
        obtain ⟨c, hcm, hcd, hcne⟩ := thousandsPat_has_digit cl hp
        exact List.ne_nil_of_mem (List.mem_filter.mpr ⟨hcm, by simpa using hcne⟩)
      have hsne : (⟨cl.filter (· ≠ ',')⟩ : String) ≠ "" := by
        intro he
        exact hne (by simpa using congrArg String.data he)
      rw [key _ hsne, data_mk]
      have hnocurr : (cl.filter (· ≠ ',')).filter (fun c => !(c ∈ currencySyms)) =
          cl.filter (· ≠ ',') := by
        apply filter_eq_self_of_all
        intro c hc
        simp only [Bool.not_eq_true']
        exact not_currency_of_digit_or_dot c (hrmem c hc)
      have hnows : jsTrimL (cl.filter (· ≠ ',')) = cl.filter (· ≠ ',') :=
        jsTrimL_eq_self_of_all _ fun c hc => not_ws_of_digit_or_dot c (hrmem c hc)
      rw [hnocurr, hnows]
      have hnoc : ',' ∉ cl.filter (· ≠ ',') := by
        intro hcm
        have := List.of_mem_filter hcm
        simp at this
      have hfalse : thousandsPat (cl.filter (· ≠ ',')) = false := thousandsPat_no_comma _ hnoc
      rw [if_neg (by rw [hfalse]; exact Bool.false_ne_true)]
    · rw [if_neg hp, key s h, if_neg hp]

/-! ## Character-level facts for the case maps -/

theorem toNat_ofNat_valid (n : ℕ) (h : n < 0xD800) : (Char.ofNat n).toNat = n := by
  simp [Char.ofNat, Nat.isValidChar, Char.ofNatAux, Char.toNat, Or.inl h,
    UInt32.toNat, UInt32.ofNat', BitVec.toNat_ofNatLt]

theorem char_le_iff (a b : Char) : a ≤ b ↔ a.toNat ≤ b.toNat := by
  rw [Char.le_def, UInt32.le_def, BitVec.le_def]
  exact Iff.rfl

theorem toNat_range_of_upper (c : Char) (h : 'A' ≤ c ∧ c ≤ 'Z') :
    65 ≤ c.toNat ∧ c.toNat ≤ 90 := by
  obtain ⟨h1, h2⟩ := h
  rw [char_le_iff] at h1 h2
  exact ⟨h1, h2⟩

theorem toNat_range_of_lower (c : Char) (h : 'a' ≤ c ∧ c ≤ 'z') :
    97 ≤ c.toNat ∧ c.toNat ≤ 122 := by
  obtain ⟨h1, h2⟩ := h
  rw [char_le_iff] at h1 h2
  exact ⟨h1, h2⟩

theorem char_le_of_toNat (a b : Char) (h : a.toNat ≤ b.toNat) : a ≤ b :=
  (char_le_iff a b).mpr h

theorem asciiLower_toNat (c : Char) (h : 'A' ≤ c ∧ c ≤ 'Z') :
    (asciiLower c).toNat = c.toNat + 32 := by
  rw [asciiLower, if_pos h]
  obtain ⟨_, h2⟩ := toNat_range_of_upper c h
  exact toNat_ofNat_valid _ (by omega)

theorem asciiUpper_toNat (c : Char) (h : 'a' ≤ c ∧ c ≤ 'z') :
    (asciiUpper c).toNat = c.toNat - 32 := by
  rw [asciiUpper, if_pos h]
  obtain ⟨h1, h2⟩ := toNat_range_of_lower c h
  exact toNat_ofNat_valid _ (by omega)

theorem asciiLower_idem (c : Char) : asciiLower (asciiLower c) = asciiLower c := by
  by_cases h : 'A' ≤ c ∧ c ≤ 'Z'
  · have ht := asciiLower_toNat c h
    obtain ⟨h1, h2⟩ := toNat_range_of_upper c h
    rw [asciiLower]
    rw [if_neg (by
      intro hcon
      obtain ⟨g1, g2⟩ := toNat_range_of_upper _ hcon
      omega)]
  · have hin : asciiLower c = c := by rw [asciiLower, if_neg h]
    rw [hin]
    exact hin

theorem asciiUpper_idem (c : Char) : asciiUpper (asciiUpper c) = asciiUpper c := by
  by_cases h : 'a' ≤ c ∧ c ≤ 'z'
  · have ht := asciiUpper_toNat c h
    obtain ⟨h1, h2⟩ := toNat_range_of_lower c h
    rw [asciiUpper]
    rw [if_neg (by
      intro hcon
      obtain ⟨g1, g2⟩ := toNat_range_of_lower _ hcon
      omega)]
  · have hin : asciiUpper c = c := by rw [asciiUpper, if_neg h]
    rw [hin]
    exact hin

theorem toNat_mem_of_isJsSpace (c : Char) (h : isJsSpace c = true) :
    c.toNat ∈ [32, 9, 10, 13, 11, 12, 160, 5760, 8192, 8193, 8194, 8195, 8196,
      8197, 8198, 8199, 8200, 8201, 8202, 8232, 8233, 8239, 8287, 12288, 65279] := by
  rw [isJsSpace] at h
  simp only [List.mem_cons, List.not_mem_nil, or_false, decide_eq_true_eq] at h
  rcases h with rfl | rfl | rfl | rfl | rfl | rfl | rfl | rfl | rfl | rfl | rfl | rfl |
    rfl | rfl | rfl | rfl | rfl | rfl | rfl | rfl | rfl | rfl | rfl | rfl | rfl <;> decide

theorem not_isJsSpace_of_range (c : Char) (h1 : 33 ≤ c.toNat) (h2 : c.toNat ≤ 159) :
    isJsSpace c = false := by
  by_contra h
  have := toNat_mem_of_isJsSpace c (by simpa using h)
  simp only [List.mem_cons, List.not_mem_nil, or_false] at this
  omega

theorem isJsSpace_asciiLower (c : Char) : isJsSpace (asciiLower c) = isJsSpace c := by
  by_cases h : 'A' ≤ c ∧ c ≤ 'Z'
  · obtain ⟨h1, h2⟩ := toNat_range_of_upper c h
    have ht := asciiLower_toNat c h
    rw [not_isJsSpace_of_range c (by omega) (by omega),
      not_isJsSpace_of_range _ (by omega) (by omega)]
  · rw [asciiLower, if_neg h]

theorem isJsSpace_asciiUpper (c : Char) : isJsSpace (asciiUpper c) = isJsSpace c := by
  by_cases h : 'a' ≤ c ∧ c ≤ 'z'
  · obtain ⟨h1, h2⟩ := toNat_range_of_lower c h
    have ht := asciiUpper_toNat c h
    rw [not_isJsSpace_of_range c (by omega) (by omega),
      not_isJsSpace_of_range _ (by omega) (by omega)]
  · rw [asciiUpper, if_neg h]

/-! ## Tokenizer lemmas for the title-casing branch -/

theorem dropWhile_all {p : Char → Bool} :
    ∀ l : List Char, l.dropWhile p = [] → ∀ c ∈ l, p c = true := by
  intro l
  induction l with
  | nil => simp
  | cons a t ih =>
    intro h c hc
    rw [List.dropWhile_cons] at h
    by_cases hp : p a = true
    · rw [if_pos hp] at h
      rcases List.mem_cons.mp hc with rfl | hc
      · exact hp
      · exact ih h c hc
    · rw [if_neg hp] at h
      exact absurd h (by simp)

theorem all_dropWhile {p : Char → Bool} :
    ∀ l : List Char, (∀ c ∈ l, p c = true) → l.dropWhile p = [] := by
  intro l
  induction l with
  | nil => intro _; rfl
  | cons a t ih =>
    intro h
    rw [List.dropWhile_cons, if_pos (h a (List.mem_cons_self ..))]
    exact ih fun c hc => h c (List.mem_cons_of_mem _ hc)

theorem jsTrimL_eq_nil_iff (l : List Char) :
    jsTrimL l = [] ↔ ∀ c ∈ l, isJsSpace c = true := by
  constructor
  · intro h c hc
    rw [jsTrimL, trimEndJs, List.reverse_eq_nil_iff] at h
    have hall := dropWhile_all _ h
    rw [← List.takeWhile_append_dropWhile (p := isJsSpace) (l := l)] at hc
    rcases List.mem_append.mp hc with hc | hc
    · exact List.mem_takeWhile_imp hc
    · exact hall c (List.mem_reverse.mpr hc)
  · intro h
    rw [jsTrimL, all_dropWhile l h]
    rfl

theorem titleWord_ws (w : List Char) (h : ∀ c ∈ w, isJsSpace c = true) :
    titleWord w = w := by
  rw [titleWord.eq_def, if_pos ((jsTrimL_eq_nil_iff w).mpr h)]

theorem titleWord_word (c : Char) (t : List Char)
    (h : ∀ x ∈ c :: t, isJsSpace x = false) :
    titleWord (c :: t) = asciiUpper c :: t.map asciiLower := by
  rw [titleWord.eq_def, if_neg (by rw [jsTrimL_eq_self_of_all _ h]; simp)]

theorem titleWord_word_all (c : Char) (t : List Char)
    (h : ∀ x ∈ c :: t, isJsSpace x = false) :
    ∀ x ∈ titleWord (c :: t), isJsSpace x = false := by
  rw [titleWord_word c t h]
  intro x hx
  rcases List.mem_cons.mp hx with rfl | hx
  · rw [isJsSpace_asciiUpper]
    exact h c (List.mem_cons_self ..)
  · obtain ⟨y, hy, rfl⟩ := List.mem_map.mp hx
    rw [isJsSpace_asciiLower]
    exact h y (List.mem_cons_of_mem _ hy)

theorem titleWord_idem (w : List Char) : titleWord (titleWord w) = titleWord w := by
  by_cases h : jsTrimL w = []
  · have hin : titleWord w = w := by rw [titleWord.eq_def, if_pos h]
    rw [hin]
    exact hin
  · rcases w with _ | ⟨c, t⟩
    · exact absurd rfl h
    · have hin : titleWord (c :: t) = asciiUpper c :: t.map asciiLower := by
        rw [titleWord.eq_def, if_neg h]
      rw [hin]
      have hne : ¬ jsTrimL (asciiUpper c :: t.map asciiLower) = [] := by
        intro hnil
        apply h
        rw [jsTrimL_eq_nil_iff] at hnil ⊢
        intro x hx
        rcases List.mem_cons.mp hx with rfl | hx
        · have := hnil (asciiUpper x) (List.mem_cons_self ..)
          rwa [isJsSpace_asciiUpper] at this
        · have := hnil (asciiLower x) (List.mem_cons_of_mem _ (List.mem_map_of_mem _ hx))
          rwa [isJsSpace_asciiLower] at this
      rw [titleWord.eq_def, if_neg hne]
      show asciiUpper (asciiUpper c) :: (t.map asciiLower).map asciiLower = _
      rw [asciiUpper_idem, List.map_map]
      congr 1
      exact List.map_congr_left fun a _ => asciiLower_idem a

theorem splitWsAcc_append_word :
    ∀ (w : List Char), (∀ c ∈ w, isJsSpace c = false) → ∀ (acc rest : List Char),
      splitWsAcc acc (w ++ rest) = splitWsAcc (w.reverse ++ acc) rest := by
  intro w
  induction w with
  | nil => intro _ acc rest; simp
  | cons c t ih =>
    intro h acc rest
    rw [List.cons_append]
    simp only [splitWsAcc]
    rw [if_neg (by simp [h c (List.mem_cons_self ..)]),
      ih (fun x hx => h x (List.mem_cons_of_mem _ hx)) (c :: acc) rest]
    congr 1
    simp

theorem splitSpAcc_append_sp :
    ∀ (sp : List Char), (∀ c ∈ sp, isJsSpace c = true) → ∀ (a rest : List Char),
      splitSpAcc a (sp ++ rest) = splitSpAcc (sp.reverse ++ a) rest := by
  intro sp
  induction sp with
  | nil => intro _ a rest; simp
  | cons c t ih =>
    intro h a rest
    rw [List.cons_append]
    simp only [splitSpAcc]
    rw [if_pos (h c (List.mem_cons_self ..)),
      ih (fun x hx => h x (List.mem_cons_of_mem _ hx)) (c :: a) rest]
    congr 1
    simp

theorem splitWsAcc_join_tail :
    ∀ (rest : List (List Char)), wsAltTail rest = true → ∀ (a : List Char),
      splitWsAcc a rest.flatten = a.reverse :: rest
  | [], _, a => by simp [splitWsAcc]
  | [x], h, a => by simp [wsAltTail] at h
  | sp :: w :: rest, h, a => by
    simp only [wsAltTail, Bool.and_eq_true, Bool.or_eq_true, Bool.not_eq_true'] at h
    obtain ⟨⟨⟨⟨hspne, hspws⟩, hwall⟩, hwor⟩, htail⟩ := h
    rcases sp with _ | ⟨c, sp'⟩
    · simp at hspne
    have hc : isJsSpace c = true := List.all_eq_true.mp hspws c (List.mem_cons_self ..)
    have hsp' : ∀ x ∈ sp', isJsSpace x = true :=
      fun x hx => List.all_eq_true.mp hspws x (List.mem_cons_of_mem _ hx)
    rw [List.flatten_cons, List.flatten_cons, ← List.append_assoc]
    rw [show (c :: sp') ++ w ++ rest.flatten = c :: (sp' ++ (w ++ rest.flatten)) by simp]
    simp only [splitWsAcc]
    rw [if_pos hc, splitSpAcc_append_sp sp' hsp' [c] (w ++ rest.flatten)]
    rcases w with _ | ⟨d, t⟩
    · rcases hwor with hrest | hfalse
      · have : rest = [] := by simpa [List.isEmpty_iff] using hrest
        subst this
        simp [splitSpAcc]
      · simp at hfalse
    · have hd : isJsSpace d = false := by
        have := List.all_eq_true.mp hwall d (List.mem_cons_self ..)
        simpa using this
      have ht : ∀ x ∈ t, isJsSpace x = false := by
        intro x hx
        have := List.all_eq_true.mp hwall x (List.mem_cons_of_mem _ hx)
        simpa using this
      rw [List.cons_append]
      simp only [splitSpAcc]
      rw [if_neg (by simp [hd]), splitWsAcc_append_word t ht [d] rest.flatten,
        splitWsAcc_join_tail rest htail (t.reverse ++ [d])]
      simp
  termination_by rest => rest.length

theorem splitWsL_join (toks : List (List Char)) (h : wsAlt toks = true) :
    splitWsL toks.flatten = toks := by
  rcases toks with _ | ⟨w, rest⟩
  · simp [wsAlt] at h
  · simp only [wsAlt, Bool.and_eq_true] at h
    obtain ⟨hw, htail⟩ := h
    have hwall : ∀ c ∈ w, isJsSpace c = false := by
      intro c hc
      have := List.all_eq_true.mp hw c hc
      simpa using this
    rw [splitWsL, List.flatten_cons, splitWsAcc_append_word w hwall [] rest.flatten,
      List.append_nil, splitWsAcc_join_tail rest htail w.reverse, List.reverse_reverse]

theorem splitAcc_valid :
    ∀ (n : ℕ) (cs : List Char), cs.length ≤ n →
      (∀ acc, ∃ w rest, splitWsAcc acc cs = (acc.reverse ++ w) :: rest ∧
        (∀ c ∈ w, isJsSpace c = false) ∧ wsAltTail rest = true) ∧
      (∀ sp, sp ≠ [] → (∀ c ∈ sp, isJsSpace c = true) →
        wsAltTail (splitSpAcc sp cs) = true) := by
  intro n
  induction n with
  | zero =>
    intro cs hcs
    have : cs = [] := List.length_eq_zero.mp (by omega)
    subst this
    constructor
    · intro acc
      exact ⟨[], [], by simp [splitWsAcc], by simp, rfl⟩
    · intro sp hne hws
      show wsAltTail [sp.reverse, []] = true
      simp only [wsAltTail, Bool.and_eq_true, Bool.or_eq_true, Bool.not_eq_true']
      refine ⟨⟨⟨⟨?_, ?_⟩, ?_⟩, ?_⟩, trivial⟩
      · simp [List.isEmpty_iff, hne]
      · rw [List.all_eq_true]
        exact fun x hx => hws x (List.mem_reverse.mp hx)
      · simp
      · left
        rfl
  | succ m ih =>
    intro cs hcs
    rcases cs with _ | ⟨c, s⟩
    · constructor
      · intro acc
        exact ⟨[], [], by simp [splitWsAcc], by simp, rfl⟩
      · intro sp hne hws
        show wsAltTail [sp.reverse, []] = true
        simp only [wsAltTail, Bool.and_eq_true, Bool.or_eq_true, Bool.not_eq_true']
        refine ⟨⟨⟨⟨?_, ?_⟩, ?_⟩, ?_⟩, trivial⟩
        · simp [List.isEmpty_iff, hne]
        · rw [List.all_eq_true]
          exact fun x hx => hws x (List.mem_reverse.mp hx)
        · simp
        · left
          rfl
    · have hs : s.length ≤ m := by simpa using hcs
      obtain ⟨ihw, ihsp⟩ := ih s hs
      constructor
      · intro acc
        by_cases hc : isJsSpace c = true
        · refine ⟨[], splitSpAcc [c] s, ?_, by simp,
            ihsp [c] (by simp) (fun x hx => by
              rcases List.mem_singleton.mp hx with rfl
              exact hc)⟩
          simp only [splitWsAcc]
          rw [if_pos hc]
          simp
        · obtain ⟨w, rest, heq, hwall, htail⟩ := ihw (c :: acc)
          refine ⟨c :: w, rest, ?_, ?_, htail⟩
          · simp only [splitWsAcc]
            rw [if_neg hc, heq]
            congr 1
            simp
          · intro x hx
            rcases List.mem_cons.mp hx with rfl | hx
            · simpa using hc
            · exact hwall x hx
      · intro sp hne hws
        by_cases hc : isJsSpace c = true
        · simp only [splitSpAcc]
          rw [if_pos hc]
          refine ihsp (c :: sp) (by simp) ?_
          intro x hx
          rcases List.mem_cons.mp hx with rfl | hx
          · exact hc
          · exact hws x hx
        · obtain ⟨w, rest, heq, hwall, htail⟩ := ihw [c]
          simp only [splitSpAcc]
          rw [if_neg hc, heq]
          show wsAltTail (sp.reverse :: ([c].reverse ++ w) :: rest) = true
          simp only [wsAltTail, List.reverse_cons, List.reverse_nil, List.nil_append,
            List.cons_append, Bool.and_eq_true, Bool.or_eq_true, Bool.not_eq_true']
      
          refine ⟨⟨⟨⟨?_, ?_⟩, ?_⟩, ?_⟩, htail⟩
          · simp [List.isEmpty_iff, hne]
          · rw [List.all_eq_true]
            exact fun x hx => hws x (List.mem_reverse.mp hx)
          · rw [List.all_eq_true]
            intro x hx
            rcases List.mem_cons.mp hx with rfl | hx
            · simpa using hc
            · simp [hwall x hx]
          · right
            simp

theorem wsAlt_splitWsL (cs : List Char) : wsAlt (splitWsL cs) = true := by
  obtain ⟨ihw, _⟩ := splitAcc_valid cs.length cs le_rfl
  obtain ⟨w, rest, heq, hwall, htail⟩ := ihw []
  rw [splitWsL, heq]
  simp only [wsAlt, List.reverse_nil, List.nil_append, Bool.and_eq_true]
  refine ⟨?_, htail⟩
  rw [List.all_eq_true]
  intro x hx
  simp [hwall x hx]

theorem titleWord_nil : titleWord [] = [] := rfl

theorem wsAltTail_map_titleWord :
    ∀ (rest : List (List Char)), wsAltTail rest = true →
      wsAltTail (rest.map titleWord) = true
  | [], _ => rfl
  | [x], h => by simp [wsAltTail] at h
  | sp :: w :: rest, h => by
    simp only [wsAltTail, Bool.and_eq_true, Bool.or_eq_true, Bool.not_eq_true'] at h
    obtain ⟨⟨⟨⟨hspne, hspws⟩, hwall⟩, hwor⟩, htail⟩ := h
    rw [List.map_cons, List.map_cons,
      titleWord_ws sp (fun c hc => List.all_eq_true.mp hspws c hc)]
    have hrec := wsAltTail_map_titleWord rest htail
    simp only [wsAltTail, Bool.and_eq_true, Bool.or_eq_true, Bool.not_eq_true']
    refine ⟨⟨⟨⟨?_, hspws⟩, ?_⟩, ?_⟩, hrec⟩
    · exact hspne
    · rcases w with _ | ⟨d, t⟩
      · simp [titleWord_nil]
      · have hw' : ∀ x ∈ d :: t, isJsSpace x = false := by
          intro x hx
          have := List.all_eq_true.mp hwall x hx
          simpa using this
        rw [List.all_eq_true]
        intro x hx
        simp [titleWord_word_all d t hw' x hx]
    · rcases w with _ | ⟨d, t⟩
      · rcases hwor with hrest | hfalse
        · left
          simpa using hrest
        · simp at hfalse
      · right
        have hw' : ∀ x ∈ d :: t, isJsSpace x = false := by
          intro x hx
          have := List.all_eq_true.mp hwall x hx
          simpa using this
        rw [titleWord_word d t hw']
        simp
  termination_by rest => rest.length

theorem wsAlt_map_titleWord (toks : List (List Char)) (h : wsAlt toks = true) :
    wsAlt (toks.map titleWord) = true := by
  rcases toks with _ | ⟨w, rest⟩
  · simp [wsAlt] at h
  · simp only [wsAlt, Bool.and_eq_true] at h
    obtain ⟨hw, htail⟩ := h
    rw [List.map_cons]
    simp only [wsAlt, Bool.and_eq_true]
    refine ⟨?_, wsAltTail_map_titleWord rest htail⟩
    rcases w with _ | ⟨d, t⟩
    · simp [titleWord_nil]
    · have hw' : ∀ x ∈ d :: t, isJsSpace x = false := by
        intro x hx
        have := List.all_eq_true.mp hw x hx
        simpa using this
      rw [List.all_eq_true]
      intro x hx
      simp [titleWord_word_all d t hw' x hx]

theorem normalizeCaseFn_email_eq (s col : String) (hs : ¬ s = "")
    (h1 : (containsSubL "email".data (col.data.map asciiLower) ||
      containsSubL "e_mail".data (col.data.map asciiLower)) = true) :
    normalizeCaseFn s col = ⟨s.data.map asciiLower⟩ := by
  rw [normalizeCaseFn, if_neg hs]
  show (if (containsSubL "email".data (col.data.map asciiLower) ||
      containsSubL "e_mail".data (col.data.map asciiLower)) = true then _ else _) = _
  rw [if_pos h1]

theorem normalizeCaseFn_url_eq (s col : String) (hs : ¬ s = "")
    (h1 : ¬ (containsSubL "email".data (col.data.map asciiLower) ||
      containsSubL "e_mail".data (col.data.map asciiLower)) = true)
    (h2 : (containsSubL "url".data (col.data.map asciiLower) ||
      containsSubL "website".data (col.data.map asciiLower) ||
      containsSubL "href".data (col.data.map asciiLower) ||
      containsSubL "link".data (col.data.map asciiLower)) = true) :
    normalizeCaseFn s col = ⟨s.data.map asciiLower⟩ := by
  rw [normalizeCaseFn, if_neg hs]
  show (if (containsSubL "email".data (col.data.map asciiLower) ||
      containsSubL "e_mail".data (col.data.map asciiLower)) = true then _ else _) = _
  rw [if_neg h1, if_pos h2]

theorem normalizeCaseFn_name_eq (s col : String) (hs : ¬ s = "")
    (h1 : ¬ (containsSubL "email".data (col.data.map asciiLower) ||
      containsSubL "e_mail".data (col.data.map asciiLower)) = true)
    (h2 : ¬ (containsSubL "url".data (col.data.map asciiLower) ||
      containsSubL "website".data (col.data.map asciiLower) ||
      containsSubL "href".data (col.data.map asciiLower) ||
      containsSubL "link".data (col.data.map asciiLower)) = true)
    (h3 : (nameColTokens.any fun t => t.data = col.data.map asciiLower) = true) :
    normalizeCaseFn s col = ⟨((splitWsL s.data).map titleWord).flatten⟩ := by
  rw [normalizeCaseFn, if_neg hs]
  show (if (containsSubL "email".data (col.data.map asciiLower) ||
      containsSubL "e_mail".data (col.data.map asciiLower)) = true then _ else _) = _
  rw [if_neg h1, if_neg h2, if_pos h3]

theorem normalizeCaseFn_other_eq (s col : String)
    (h1 : ¬ (containsSubL "email".data (col.data.map asciiLower) ||
      containsSubL "e_mail".data (col.data.map asciiLower)) = true)
    (h2 : ¬ (containsSubL "url".data (col.data.map asciiLower) ||
      containsSubL "website".data (col.data.map asciiLower) ||
      containsSubL "href".data (col.data.map asciiLower) ||
      containsSubL "link".data (col.data.map asciiLower)) = true)
    (h3 : ¬ (nameColTokens.any fun t => t.data = col.data.map asciiLower) = true) :
    normalizeCaseFn s col = s := by
  by_cases hs : s = ""
  · rw [normalizeCaseFn, if_pos hs]
  · rw [normalizeCaseFn, if_neg hs]
    show (if (containsSubL "email".data (col.data.map asciiLower) ||
        containsSubL "e_mail".data (col.data.map asciiLower)) = true then _ else _) = _
    rw [if_neg h1, if_neg h2, if_neg h3]

theorem map_asciiLower_idem (l : List Char) :
    (l.map asciiLower).map asciiLower = l.map asciiLower := by
  rw [List.map_map]
  exact List.map_congr_left fun a _ => asciiLower_idem a

theorem normalizeCaseFn_idem (s col : String) :
    normalizeCaseFn (normalizeCaseFn s col) col = normalizeCaseFn s col := by
  by_cases hs : s = ""
  · have h0 : normalizeCaseFn "" col = "" := by rw [normalizeCaseFn, if_pos rfl]
    subst hs
    rw [h0]
    exact h0
  · by_cases h1 : (containsSubL "email".data (col.data.map asciiLower) ||
        containsSubL "e_mail".data (col.data.map asciiLower)) = true
    · rw [normalizeCaseFn_email_eq s col hs h1]
      by_cases hs2 : (⟨s.data.map asciiLower⟩ : String) = ""
      · rw [normalizeCaseFn, if_pos hs2]
      · rw [normalizeCaseFn_email_eq _ col hs2 h1, data_mk]
        exact congrArg String.mk (map_asciiLower_idem s.data)
    · by_cases h2 : (containsSubL "url".data (col.data.map asciiLower) ||
          containsSubL "website".data (col.data.map asciiLower) ||
          containsSubL "href".data (col.data.map asciiLower) ||
          containsSubL "link".data (col.data.map asciiLower)) = true
      · rw [normalizeCaseFn_url_eq s col hs h1 h2]
        by_cases hs2 : (⟨s.data.map asciiLower⟩ : String) = ""
        · rw [normalizeCaseFn, if_pos hs2]
        · rw [normalizeCaseFn_url_eq _ col hs2 h1 h2, data_mk]
          exact congrArg String.mk (map_asciiLower_idem s.data)
      · by_cases h3 : (nameColTokens.any fun t => t.data = col.data.map asciiLower) = true
        · rw [normalizeCaseFn_name_eq s col hs h1 h2 h3]
          by_cases hs2 : (⟨((splitWsL s.data).map titleWord).flatten⟩ : String) = ""
          · rw [normalizeCaseFn, if_pos hs2]
          · rw [normalizeCaseFn_name_eq _ col hs2 h1 h2 h3, data_mk]
            refine congrArg String.mk ?_
            rw [splitWsL_join _ (wsAlt_map_titleWord _ (wsAlt_splitWsL s.data)),
              List.map_map]
            exact congrArg List.flatten
              (List.map_congr_left fun w _ => titleWord_idem w)
        · rw [normalizeCaseFn_other_eq s col h1 h2 h3,
            normalizeCaseFn_other_eq s col h1 h2 h3]

/-! ## Decimal printing and date-normalization lemmas -/

theorem natOfDigits_general (l : List Char) :
    ∀ a : ℕ, List.foldl (fun n c => n * 10 + (c.toNat - 48)) a l =
      a * 10 ^ l.length + natOfDigits l := by
  induction l with
  | nil => intro a; simp [natOfDigits]
  | cons c t ih =>
    intro a
    rw [List.foldl_cons, ih]
    conv_rhs => rw [natOfDigits, List.foldl_cons]
    rw [ih]
    simp [List.length_cons, pow_succ]
    ring

theorem natOfDigits_cons (c : Char) (t : List Char) :
    natOfDigits (c :: t) = (c.toNat - 48) * 10 ^ t.length + natOfDigits t := by
  rw [natOfDigits, List.foldl_cons, natOfDigits_general]
  simp

theorem natOfDigits_append_singleton (l : List Char) (c : Char) :
    natOfDigits (l ++ [c]) = natOfDigits l * 10 + (c.toNat - 48) := by
  rw [natOfDigits, List.foldl_append]
  rfl

theorem isDigit_toNat_iff (c : Char) : c.isDigit = true ↔ 48 ≤ c.toNat ∧ c.toNat ≤ 57 := by
  rw [Char.isDigit, Bool.and_eq_true, decide_eq_true_eq, decide_eq_true_eq]
  constructor
  · rintro ⟨h1, h2⟩
    refine ⟨?_, ?_⟩
    · have h : (48 : UInt32) ≤ c.val := h1
      rw [UInt32.le_def, BitVec.le_def] at h
      exact h
    · have h : c.val ≤ (57 : UInt32) := h2
      rw [UInt32.le_def, BitVec.le_def] at h
      exact h
  · rintro ⟨h1, h2⟩
    constructor
    · show (48 : UInt32) ≤ c.val
      rw [UInt32.le_def, BitVec.le_def]
      exact h1
    · show c.val ≤ (57 : UInt32)
      rw [UInt32.le_def, BitVec.le_def]
      exact h2

theorem natOfDigits_lt (l : List Char) (h : ∀ c ∈ l, c.isDigit = true) :
    natOfDigits l < 10 ^ l.length := by
  induction l with
  | nil => simp [natOfDigits]
  | cons c t ih =>
    rw [natOfDigits_cons]
    have hc := (isDigit_toNat_iff c).mp (h c (List.mem_cons_self ..))
    have ht := ih fun x hx => h x (List.mem_cons_of_mem _ hx)
    have : c.toNat - 48 ≤ 9 := by omega
    calc (c.toNat - 48) * 10 ^ t.length + natOfDigits t
        ≤ 9 * 10 ^ t.length + natOfDigits t := by
          exact Nat.add_le_add_right (Nat.mul_le_mul_right _ this) _
      _ < 9 * 10 ^ t.length + 10 ^ t.length := by omega
      _ = 10 ^ (c :: t).length := by
          simp [List.length_cons, pow_succ]
          ring

theorem natToDecGo_congr :
    ∀ (n f1 f2 : ℕ), n < f1 → n < f2 → natToDecGo f1 n = natToDecGo f2 n := by
  intro n
  induction n using Nat.strong_induction_on with
  | _ n ih =>
    intro f1 f2 h1 h2
    rcases f1 with _ | g1
    · omega
    rcases f2 with _ | g2
    · omega
    rw [natToDecGo, natToDecGo]
    by_cases hn : n < 10
    · rw [if_pos hn, if_pos hn]
    · rw [if_neg hn, if_neg hn, ih (n / 10) (by omega) g1 g2 (by omega) (by omega)]

theorem natToDec_step (n : ℕ) :
    natToDec n = if n < 10 then [Char.ofNat (48 + n)]
      else natToDec (n / 10) ++ [Char.ofNat (48 + n % 10)] := by
  rw [natToDec, natToDecGo]
  by_cases hn : n < 10
  · rw [if_pos hn, if_pos hn]
  · rw [if_neg hn, if_neg hn, natToDec,
      natToDecGo_congr (n / 10) n (n / 10 + 1) (by omega) (by omega)]

theorem natToDec_digits (n : ℕ) : ∀ c ∈ natToDec n, c.isDigit = true := by
  induction n using Nat.strong_induction_on with
  | _ n ih =>
    intro c hc
    rw [natToDec_step] at hc
    by_cases hn : n < 10
    · rw [if_pos hn] at hc
      rcases List.mem_singleton.mp hc with rfl
      rw [isDigit_toNat_iff, toNat_ofNat_valid _ (by omega)]
      omega
    · rw [if_neg hn] at hc
      rcases List.mem_append.mp hc with hc | hc
      · exact ih (n / 10) (by omega) c hc
      · rcases List.mem_singleton.mp hc with rfl
        rw [isDigit_toNat_iff, toNat_ofNat_valid _ (by omega)]
        omega

theorem natToDec_ne_nil (n : ℕ) : natToDec n ≠ [] := by
  rw [natToDec_step]
  by_cases hn : n < 10
  · rw [if_pos hn]; simp
  · rw [if_neg hn]; simp

theorem natOfDigits_natToDec (n : ℕ) : natOfDigits (natToDec n) = n := by
  induction n using Nat.strong_induction_on with
  | _ n ih =>
    rw [natToDec_step]
    by_cases hn : n < 10
    · rw [if_pos hn]
      show natOfDigits [Char.ofNat (48 + n)] = n
      rw [natOfDigits]
      simp [toNat_ofNat_valid _ (show 48 + n < 0xD800 by omega)]
    · rw [if_neg hn, natOfDigits_append_singleton, ih (n / 10) (by omega),
        toNat_ofNat_valid _ (show 48 + n % 10 < 0xD800 by omega)]
      omega

theorem natToDec_four (Y : ℕ) (h1 : 1000 ≤ Y) (h2 : Y < 10000) :
    natToDec Y = [Char.ofNat (48 + Y / 1000), Char.ofNat (48 + Y / 100 % 10),
      Char.ofNat (48 + Y / 10 % 10), Char.ofNat (48 + Y % 10)] := by
  rw [natToDec_step, if_neg (by omega), natToDec_step, if_neg (by omega),
    natToDec_step, if_neg (by omega), natToDec_step, if_pos (by omega)]
  have e1 : Y / 10 / 10 = Y / 100 := by omega
  have e2 : Y / 10 / 10 / 10 = Y / 1000 := by omega
  have e3 : Y / 10 / 10 % 10 = Y / 100 % 10 := by rw [e1]
  rw [e2, e3]
  rfl

theorem natToDec_of_four (l : List Char) (hd : ∀ c ∈ l, c.isDigit = true)
    (hlen : l.length = 4) (hval : 1000 ≤ natOfDigits l) :
    natToDec (natOfDigits l) = l := by
  rcases l with _ | ⟨a, l⟩
  · simp at hlen
  rcases l with _ | ⟨b, l⟩
  · simp at hlen
  rcases l with _ | ⟨c, l⟩
  · simp at hlen
  rcases l with _ | ⟨d, l⟩
  · simp at hlen
  rcases l with _ | ⟨e, l⟩
  · clear hlen
    have ha := (isDigit_toNat_iff a).mp (hd a (by simp))
    have hb := (isDigit_toNat_iff b).mp (hd b (by simp))
    have hc := (isDigit_toNat_iff c).mp (hd c (by simp))
    have hdd := (isDigit_toNat_iff d).mp (hd d (by simp))
    have hval' : natOfDigits [a, b, c, d] =
        ((a.toNat - 48) * 10 + (b.toNat - 48)) * 100 +
          ((c.toNat - 48) * 10 + (d.toNat - 48)) := by
      rw [natOfDigits_cons, natOfDigits_cons, natOfDigits_cons, natOfDigits_cons]
      simp [natOfDigits]
      ring
    rw [natToDec_four _ (by omega) (by rw [hval']; omega)]
    rw [hval']
    have ea : (((a.toNat - 48) * 10 + (b.toNat - 48)) * 100 +
        ((c.toNat - 48) * 10 + (d.toNat - 48))) / 1000 = a.toNat - 48 := by omega
    have eb : (((a.toNat - 48) * 10 + (b.toNat - 48)) * 100 +
        ((c.toNat - 48) * 10 + (d.toNat - 48))) / 100 % 10 = b.toNat - 48 := by omega
    have ec : (((a.toNat - 48) * 10 + (b.toNat - 48)) * 100 +
        ((c.toNat - 48) * 10 + (d.toNat - 48))) / 10 % 10 = c.toNat - 48 := by omega
    have ed : (((a.toNat - 48) * 10 + (b.toNat - 48)) * 100 +
        ((c.toNat - 48) * 10 + (d.toNat - 48))) % 10 = d.toNat - 48 := by omega
    rw [ea, eb, ec, ed,
      show 48 + (a.toNat - 48) = a.toNat by omega,
      show 48 + (b.toNat - 48) = b.toNat by omega,
      show 48 + (c.toNat - 48) = c.toNat by omega,
      show 48 + (d.toNat - 48) = d.toNat by omega,
      Char.ofNat_toNat, Char.ofNat_toNat, Char.ofNat_toNat, Char.ofNat_toNat]
  · simp at hlen

theorem natToDec_length_four (Y : ℕ) (h1 : 1000 ≤ Y) (h2 : Y < 10000) :
    (natToDec Y).length = 4 := by
  rw [natToDec_four Y h1 h2]
  rfl

theorem pad2_digits (n : ℕ) : ∀ c ∈ pad2 n, c.isDigit = true := by
  rw [pad2]
  by_cases hn : n < 10
  · rw [if_pos hn]
    intro c hc
    rcases List.mem_cons.mp hc with rfl | hc
    · decide
    · exact natToDec_digits n c hc
  · rw [if_neg hn]
    exact natToDec_digits n

theorem pad2_ne_nil (n : ℕ) : pad2 n ≠ [] := by
  rw [pad2]
  by_cases hn : n < 10
  · rw [if_pos hn]; simp
  · rw [if_neg hn]; exact natToDec_ne_nil n

theorem natOfDigits_pad2 (n : ℕ) : natOfDigits (pad2 n) = n := by
  rw [pad2]
  by_cases hn : n < 10
  · rw [if_pos hn, natOfDigits, List.foldl_cons, natOfDigits_general]
    have : ('0'.toNat - 48) = 0 := by decide
    simp [this]
    exact natOfDigits_natToDec n
  · rw [if_neg hn]
    exact natOfDigits_natToDec n

theorem takeWhile_append_not {p : Char → Bool} :
    ∀ (l : List Char), (∀ c ∈ l, p c = true) → ∀ (x : Char), p x = false →
      ∀ (rest : List Char), (l ++ x :: rest).takeWhile p = l := by
  intro l
  induction l with
  | nil =>
    intro _ x hx rest
    simp [List.takeWhile_cons, hx]
  | cons c t ih =>
    intro h x hx rest
    rw [List.cons_append, List.takeWhile_cons, if_pos (h c (List.mem_cons_self ..)),
      ih (fun y hy => h y (List.mem_cons_of_mem _ hy)) x hx rest]

theorem dropWhile_append_not {p : Char → Bool} :
    ∀ (l : List Char), (∀ c ∈ l, p c = true) → ∀ (x : Char), p x = false →
      ∀ (rest : List Char), (l ++ x :: rest).dropWhile p = x :: rest := by
  intro l
  induction l with
  | nil =>
    intro _ x hx rest
    simp [List.dropWhile_cons, hx]
  | cons c t ih =>
    intro h x hx rest
    rw [List.cons_append, List.dropWhile_cons, if_pos (h c (List.mem_cons_self ..)),
      ih (fun y hy => h y (List.mem_cons_of_mem _ hy)) x hx rest]

theorem splitChar_append (sep : Char) :
    ∀ (l : List Char), sep ∉ l → ∀ (rest : List Char),
      splitChar sep (l ++ sep :: rest) = l :: splitChar sep rest := by
  intro l
  induction l with
  | nil =>
    intro _ rest
    rw [List.nil_append, splitChar, if_pos rfl]
  | cons c t ih =>
    intro h rest
    rw [List.cons_append, splitChar,
      if_neg (by intro he; exact h (he ▸ List.mem_cons_self ..)),
      ih (fun hm => h (List.mem_cons_of_mem _ hm)) rest]

theorem not_dash_of_digit (c : Char) (h : c.isDigit = true) : ¬ c = '-' := by
  intro he
  subst he
  exact absurd h (by decide)

theorem not_slash_of_digit (c : Char) (h : c.isDigit = true) : ¬ c = '/' := by
  intro he
  subst he
  exact absurd h (by decide)

theorem not_dot_of_digit (c : Char) (h : c.isDigit = true) : ¬ c = '.' := by
  intro he
  subst he
  exact absurd h (by decide)

theorem daysInMonth_le (y m : ℕ) : daysInMonth y m ≤ 31 := by
  rw [daysInMonth]
  split
  · split <;> omega
  · split <;> omega

theorem mk_ne_empty_of_ne_nil (l : List Char) (h : l ≠ []) : (⟨l⟩ : String) ≠ "" := by
  intro he
  exact h (by simpa using congrArg String.data he)

theorem ddmmyyyyParts_out (y4 : List Char) (hd : ∀ c ∈ y4, c.isDigit = true)
    (hlen : y4.length = 4) (b : List Char) :
    ddmmyyyyParts (y4 ++ '-' :: b) = none := by
  rw [ddmmyyyyParts]
  rw [takeWhile_append_not y4 hd '-' (by decide) b,
    dropWhile_append_not y4 hd '-' (by decide) b]
  show (if (isDateSep '-' && digitRun 1 2 y4) = true then _ else _) = none
  rw [if_neg (by simp [digitRun, hlen])]

theorem splitChar_out (y4 : List Char) (hy : ∀ c ∈ y4, c.isDigit = true)
    (m d : ℕ) :
    splitChar '-' (y4 ++ '-' :: pad2 m ++ '-' :: pad2 d) = [y4, pad2 m, pad2 d] := by
  rw [show y4 ++ '-' :: pad2 m ++ '-' :: pad2 d =
    y4 ++ '-' :: (pad2 m ++ '-' :: (pad2 d ++ [])) from by simp]
  rw [splitChar_append '-' y4 (fun hm => not_dash_of_digit '-' (hy '-' hm) rfl),
    splitChar_append '-' (pad2 m)
      (fun hm => not_dash_of_digit '-' (pad2_digits m '-' hm) rfl),
    splitChar_of_not_mem '-' (pad2 d ++ [])
      (by
        rw [List.append_nil]
        exact fun hm => not_dash_of_digit '-' (pad2_digits d '-' hm) rfl)]
  rw [List.append_nil]

theorem tryParseYMD_out (y4 : List Char) (hy : ∀ c ∈ y4, c.isDigit = true)
    (hlen : y4.length = 4) (m d : ℕ) :
    tryParseYMD '-' (y4 ++ '-' :: pad2 m ++ '-' :: pad2 d) =
      dateCheck (natOfDigits y4) m d := by
  rw [tryParseYMD, splitChar_out y4 hy m d]
  show (if (!y4.isEmpty && !(pad2 m).isEmpty && !(pad2 d).isEmpty &&
      y4.all Char.isDigit && (pad2 m).all Char.isDigit &&
      (pad2 d).all Char.isDigit) = true then _ else _) = _
  rw [if_pos (by
    simp only [Bool.and_eq_true, Bool.not_eq_true']
    refine ⟨⟨⟨⟨⟨?_, ?_⟩, ?_⟩, ?_⟩, ?_⟩, ?_⟩
    · simp [List.isEmpty_iff]
      intro he
      rw [he] at hlen
      simp at hlen
    · simp [List.isEmpty_iff, pad2_ne_nil m]
    · simp [List.isEmpty_iff, pad2_ne_nil d]
    · rw [List.all_eq_true]
      exact hy
    · rw [List.all_eq_true]
      exact pad2_digits m
    · rw [List.all_eq_true]
      exact pad2_digits d)]
  rw [if_pos hlen, natOfDigits_pad2, natOfDigits_pad2]

theorem out_mem (y4 : List Char) (hy : ∀ c ∈ y4, c.isDigit = true) (m d : ℕ) :
    ∀ c ∈ y4 ++ '-' :: pad2 m ++ '-' :: pad2 d, c.isDigit = true ∨ c = '-' := by
  intro c hc
  rcases List.mem_append.mp hc with hc | hc
  · rcases List.mem_append.mp hc with hc | hc
    · exact Or.inl (hy c hc)
    · rcases List.mem_cons.mp hc with rfl | hc
      · exact Or.inr rfl
      · exact Or.inl (pad2_digits m c hc)
  · rcases List.mem_cons.mp hc with rfl | hc
    · exact Or.inr rfl
    · exact Or.inl (pad2_digits d c hc)

theorem tryParseYMD_single (sep : Char) (cs : List Char) (h : sep ∉ cs) :
    tryParseYMD sep cs = none := by
  rw [tryParseYMD, splitChar_of_not_mem sep cs h]

theorem jsDateYMD_out (y4 : List Char) (hy : ∀ c ∈ y4, c.isDigit = true)
    (hlen : y4.length = 4) (m d : ℕ) :
    jsDateYMD (y4 ++ '-' :: pad2 m ++ '-' :: pad2 d) =
      dateCheck (natOfDigits y4) m d := by
  have hmem := out_mem y4 hy m d
  have hslash : '/' ∉ y4 ++ '-' :: pad2 m ++ '-' :: pad2 d := by
    intro hm
    rcases hmem '/' hm with hdig | heq
    · exact not_slash_of_digit '/' hdig rfl
    · exact absurd heq (by decide)
  have hdot : '.' ∉ y4 ++ '-' :: pad2 m ++ '-' :: pad2 d := by
    intro hm
    rcases hmem '.' hm with hdig | heq
    · exact not_dot_of_digit '.' hdig rfl
    · exact absurd heq (by decide)
  rw [jsDateYMD, tryParseYMD_out y4 hy hlen m d,
    tryParseYMD_single '/' _ hslash, tryParseYMD_single '.' _ hdot]
  rw [dateCheck]
  split
  · rfl
  · rfl

theorem standardizeDateFn_eq (s : String) (h : ¬ s = "") :
    standardizeDateFn s =
      match ddmmyyyyParts s.data with
      | some (d, m, y) =>
        if 12 < d ∧ m ≤ 12 then (⟨y ++ '-' :: pad2 m ++ '-' :: pad2 d⟩ : String)
        else
          match jsDateYMD s.data with
          | some (y, m, d) =>
            if 1900 ≤ y ∧ y ≤ 2100 then ⟨natToDec y ++ '-' :: pad2 m ++ '-' :: pad2 d⟩
            else s
          | none => s
      | none =>
        match jsDateYMD s.data with
        | some (y, m, d) =>
          if 1900 ≤ y ∧ y ≤ 2100 then ⟨natToDec y ++ '-' :: pad2 m ++ '-' :: pad2 d⟩
          else s
        | none => s := by
  rw [standardizeDateFn, if_neg h]

theorem standardizeDateFn_out (y4 : List Char) (hy : ∀ c ∈ y4, c.isDigit = true)
    (hlen : y4.length = 4) (m d : ℕ) :
    standardizeDateFn ⟨y4 ++ '-' :: pad2 m ++ '-' :: pad2 d⟩ =
      ⟨y4 ++ '-' :: pad2 m ++ '-' :: pad2 d⟩ := by
  have hne : y4 ++ '-' :: pad2 m ++ '-' :: pad2 d ≠ [] := by
    intro he
    have : y4 = [] := by
      rcases List.append_eq_nil.mp he with ⟨h1, _⟩
      exact (List.append_eq_nil.mp h1).1
    rw [this] at hlen
    simp at hlen
  rw [standardizeDateFn_eq _ (mk_ne_empty_of_ne_nil _ hne), data_mk]
  have hassoc : y4 ++ '-' :: pad2 m ++ '-' :: pad2 d =
      y4 ++ '-' :: (pad2 m ++ '-' :: pad2 d) := by simp
  rw [hassoc, ddmmyyyyParts_out y4 hy hlen _, ← hassoc,
    jsDateYMD_out y4 hy hlen m d, dateCheck]
  by_cases hb : 1 ≤ m ∧ m ≤ 12 ∧ 1 ≤ d ∧ d ≤ daysInMonth (natOfDigits y4) m
  · rw [if_pos hb]
    show (if 1900 ≤ natOfDigits y4 ∧ natOfDigits y4 ≤ 2100 then
        (⟨natToDec (natOfDigits y4) ++ '-' :: pad2 m ++ '-' :: pad2 d⟩ : String)
      else ⟨y4 ++ '-' :: pad2 m ++ '-' :: pad2 d⟩) =
      (⟨y4 ++ '-' :: pad2 m ++ '-' :: pad2 d⟩ : String)
    by_cases hr : 1900 ≤ natOfDigits y4 ∧ natOfDigits y4 ≤ 2100
    · rw [if_pos hr]
      rw [natToDec_of_four y4 hy hlen (by omega)]
    · rw [if_neg hr]
  · rw [if_neg hb]

theorem ddmmyyyyParts_some (cs : List Char) (d m : ℕ) (y : List Char)
    (h : ddmmyyyyParts cs = some (d, m, y)) :
    (∀ c ∈ y, c.isDigit = true) ∧ y.length = 4 := by
  rw [ddmmyyyyParts] at h
  rcases h1 : cs.dropWhile Char.isDigit with _ | ⟨s1, rest1⟩ <;> rw [h1] at h
  · exact Option.noConfusion h
  · change (if (isDateSep s1 && digitRun 1 2 (cs.takeWhile Char.isDigit)) = true then
        match rest1.dropWhile Char.isDigit with
        | s2 :: rest2 =>
          if (isDateSep s2 && digitRun 1 2 (rest1.takeWhile Char.isDigit) &&
              digitRun 4 4 rest2) = true then
            some (natOfDigits (cs.takeWhile Char.isDigit),
              natOfDigits (rest1.takeWhile Char.isDigit), rest2)
          else none
        | [] => none
      else none) = some (d, m, y) at h
    split at h
    · rcases h2 : rest1.dropWhile Char.isDigit with _ | ⟨s2, rest2⟩ <;> rw [h2] at h
      · exact Option.noConfusion h
      · change (if (isDateSep s2 && digitRun 1 2 (rest1.takeWhile Char.isDigit) &&
              digitRun 4 4 rest2) = true then
            some (natOfDigits (cs.takeWhile Char.isDigit),
              natOfDigits (rest1.takeWhile Char.isDigit), rest2)
          else none) = some (d, m, y) at h
        split at h
        · rename_i hcond
          simp only [Option.some.injEq, Prod.mk.injEq] at h
          obtain ⟨_, _, hy⟩ := h
          subst hy
          simp only [Bool.and_eq_true, digitRun, decide_eq_true_eq] at hcond
          obtain ⟨⟨hsep, hds2⟩, ⟨hall, hge⟩, hle⟩ := hcond
          refine ⟨fun c hc => List.all_eq_true.mp hall c hc, by omega⟩
        · exact Option.noConfusion h
    · exact Option.noConfusion h

theorem sdf_match_fallback (s : String) (h : ¬ s = "")
    (hfb : ddmmyyyyParts s.data = none ∨
      ∃ d m y, ddmmyyyyParts s.data = some (d, m, y) ∧ ¬(12 < d ∧ m ≤ 12)) :
    standardizeDateFn s =
      match jsDateYMD s.data with
      | some (y, m, d) =>
        if 1900 ≤ y ∧ y ≤ 2100 then ⟨natToDec y ++ '-' :: pad2 m ++ '-' :: pad2 d⟩
        else s
      | none => s := by
  rw [standardizeDateFn_eq s h]
  rcases hfb with hnone | ⟨d, m, y, hsome, hneg⟩
  · rw [hnone]
  · rw [hsome]
    show (if 12 < d ∧ m ≤ 12 then _ else _) = _
    rw [if_neg hneg]

theorem sdf_eq_fb_none (s : String) (h : ¬ s = "")
    (hfb : ddmmyyyyParts s.data = none ∨
      ∃ d m y, ddmmyyyyParts s.data = some (d, m, y) ∧ ¬(12 < d ∧ m ≤ 12))
    (hjs : jsDateYMD s.data = none) :
    standardizeDateFn s = s := by
  rw [sdf_match_fallback s h hfb, hjs]

theorem sdf_eq_fb_some_in (s : String) (h : ¬ s = "")
    (hfb : ddmmyyyyParts s.data = none ∨
      ∃ d m y, ddmmyyyyParts s.data = some (d, m, y) ∧ ¬(12 < d ∧ m ≤ 12))
    (y m d : ℕ) (hjs : jsDateYMD s.data = some (y, m, d))
    (hr : 1900 ≤ y ∧ y ≤ 2100) :
    standardizeDateFn s = ⟨natToDec y ++ '-' :: pad2 m ++ '-' :: pad2 d⟩ := by
  rw [sdf_match_fallback s h hfb, hjs]
  show (if 1900 ≤ y ∧ y ≤ 2100 then _ else _) = _
  rw [if_pos hr]

theorem sdf_eq_fb_some_out (s : String) (h : ¬ s = "")
    (hfb : ddmmyyyyParts s.data = none ∨
      ∃ d m y, ddmmyyyyParts s.data = some (d, m, y) ∧ ¬(12 < d ∧ m ≤ 12))
    (y m d : ℕ) (hjs : jsDateYMD s.data = some (y, m, d))
    (hr : ¬(1900 ≤ y ∧ y ≤ 2100)) :
    standardizeDateFn s = s := by
  rw [sdf_match_fallback s h hfb, hjs]
  show (if 1900 ≤ y ∧ y ≤ 2100 then _ else _) = _
  rw [if_neg hr]

theorem sdf_eq_ddmm (s : String) (h : ¬ s = "") (d m : ℕ) (y : List Char)
    (hdd : ddmmyyyyParts s.data = some (d, m, y)) (hdm : 12 < d ∧ m ≤ 12) :
    standardizeDateFn s = ⟨y ++ '-' :: pad2 m ++ '-' :: pad2 d⟩ := by
  rw [standardizeDateFn_eq s h, hdd]
  show (if 12 < d ∧ m ≤ 12 then _ else _) = _
  rw [if_pos hdm]

theorem standardizeDateFn_idem (s : String) :
    standardizeDateFn (standardizeDateFn s) = standardizeDateFn s := by
  by_cases h : s = ""
  · subst h; rfl
  · rcases hdd : ddmmyyyyParts s.data with _ | ⟨⟨d, m, y⟩⟩
    · rcases hjs : jsDateYMD s.data with _ | ⟨⟨yy, mm, dd⟩⟩
      · rw [sdf_eq_fb_none s h (Or.inl hdd) hjs, sdf_eq_fb_none s h (Or.inl hdd) hjs]
      · by_cases hr : 1900 ≤ yy ∧ yy ≤ 2100
        · rw [sdf_eq_fb_some_in s h (Or.inl hdd) yy mm dd hjs hr]
          exact standardizeDateFn_out (natToDec yy) (natToDec_digits yy)
            (natToDec_length_four yy (by omega) (by omega)) mm dd
        · rw [sdf_eq_fb_some_out s h (Or.inl hdd) yy mm dd hjs hr,
            sdf_eq_fb_some_out s h (Or.inl hdd) yy mm dd hjs hr]
    · obtain ⟨hydig, hylen⟩ := ddmmyyyyParts_some s.data d m y hdd
      by_cases hdm : 12 < d ∧ m ≤ 12
      · rw [sdf_eq_ddmm s h d m y hdd hdm]
        exact standardizeDateFn_out y hydig hylen m d
      · have hfb : ddmmyyyyParts s.data = none ∨
            ∃ d m y, ddmmyyyyParts s.data = some (d, m, y) ∧ ¬(12 < d ∧ m ≤ 12) :=
          Or.inr ⟨d, m, y, hdd, hdm⟩
        rcases hjs : jsDateYMD s.data with _ | ⟨⟨yy, mm, dd⟩⟩
        · rw [sdf_eq_fb_none s h hfb hjs, sdf_eq_fb_none s h hfb hjs]
        · by_cases hr : 1900 ≤ yy ∧ yy ≤ 2100
          · rw [sdf_eq_fb_some_in s h hfb yy mm dd hjs hr]
            exact standardizeDateFn_out (natToDec yy) (natToDec_digits yy)
              (natToDec_length_four yy (by omega) (by omega)) mm dd
          · rw [sdf_eq_fb_some_out s h hfb yy mm dd hjs hr,
              sdf_eq_fb_some_out s h hfb yy mm dd hjs hr]

/-! ## Email-repair idempotence machinery -/

theorem fixEmail_eq (email : String) (h : ¬ email = "") :
    fixEmail email =
      if emailShapeOk (emailFixed email) then ⟨emailFixed email⟩ else email := by
  rw [fixEmail, if_neg h]
  rfl

theorem mem_jsTrimL (l : List Char) (c : Char) (h : c ∈ jsTrimL l) : c ∈ l := by
  rw [jsTrimL, trimEndJs] at h
  rw [List.mem_reverse] at h
  have h1 := (List.dropWhile_sublist _).mem h
  rw [List.mem_reverse] at h1
  exact (List.dropWhile_sublist _).mem h1

theorem mem_collapseRuns (t : Char) :
    ∀ (l : List Char) (c : Char), c ∈ collapseRuns t l → c ∈ l
  | [], c, h => by simp [collapseRuns] at h
  | [x], c, h => by simpa [collapseRuns] using h
  | a :: b :: s, c, h => by
    rw [collapseRuns] at h
    split at h
    · exact List.mem_cons_of_mem _ (mem_collapseRuns t (b :: s) c h)
    · rcases List.mem_cons.mp h with rfl | h
      · exact List.mem_cons_self ..
      · exact List.mem_cons_of_mem _ (mem_collapseRuns t (b :: s) c h)
  termination_by l => l.length

theorem mem_replaceFirstL (p r : List Char) :
    ∀ (l : List Char) (c : Char), c ∈ replaceFirstL p r l → c ∈ l ∨ c ∈ r := by
  intro l
  induction l with
  | nil => intro c h; simp [replaceFirstL] at h
  | cons a s ih =>
    intro c h
    rw [replaceFirstL] at h
    split at h
    · rcases List.mem_append.mp h with h | h
      · exact Or.inr h
      · exact Or.inl ((List.drop_sublist _ _).mem h)
    · rcases List.mem_cons.mp h with rfl | h
      · exact Or.inl (List.mem_cons_self ..)
      · rcases ih c h with h | h
        · exact Or.inl (List.mem_cons_of_mem _ h)
        · exact Or.inr h

theorem map_eq_self_of {f : Char → Char} :
    ∀ (l : List Char), (∀ c ∈ l, f c = c) → l.map f = l := by
  intro l
  induction l with
  | nil => intro _; rfl
  | cons a s ih =>
    intro h
    rw [List.map_cons, h a (List.mem_cons_self ..),
      ih fun c hc => h c (List.mem_cons_of_mem _ hc)]

theorem lowered_emailFixed (email : String) (c : Char) (hc : c ∈ emailFixed email) :
    asciiLower c = c := by
  have hcanon : ∀ x ∈ emailCanon email, asciiLower x = x := by
    intro x hx
    rw [emailCanon] at hx
    have h1 := mem_collapseRuns ',' _ x (mem_collapseRuns '.' _ x hx)
    have h2 := List.mem_of_mem_filter h1
    have h3 := mem_jsTrimL _ x h2
    obtain ⟨y, _, rfl⟩ := List.mem_map.mp h3
    exact asciiLower_idem y
  rw [emailFixed] at hc
  rcases hfind : domainFixes.find?
      (fun pr => ('@' :: pr.1.data).isSuffixOf (emailCanon email)) with _ | pr
  · rw [hfind] at hc
    exact hcanon c hc
  · rw [hfind] at hc
    rcases mem_replaceFirstL _ _ _ c hc with h | h
    · exact hcanon c h
    · have hpr := List.mem_of_find?_eq_some hfind
      rcases List.mem_cons.mp h with rfl | h
      · decide
      · exact (show ∀ pr ∈ domainFixes, ∀ c ∈ pr.2.data, asciiLower c = c
          by decide) pr hpr c h

theorem okEmailChar_props (c : Char) (h : okEmailChar c = true) :
    isJsSpace c = false ∧ ¬ c = '@' := by
  rw [okEmailChar, Bool.and_eq_true] at h
  obtain ⟨h1, h2⟩ := h
  constructor
  · simpa using h1
  · simpa using h2

theorem emailShapeOk_decompose (cs : List Char) (h : emailShapeOk cs = true) :
    ∃ loc dom, cs = loc ++ '@' :: dom ∧ loc ≠ [] ∧
      (∀ c ∈ loc, okEmailChar c = true) ∧ (∀ c ∈ dom, okEmailChar c = true) := by
  rw [emailShapeOk] at h
  rcases hm : cs.dropWhile (· ≠ '@') with _ | ⟨a, dom⟩ <;> rw [hm] at h
  · exact absurd h (by simp)
  · have ha : a = '@' := by
      by_contra hne
      have := List.head_dropWhile_not (· ≠ '@') (l := cs)
      rw [hm] at this
      simp at this
      exact hne this
    subst ha
    simp only [Bool.and_eq_true] at h
    obtain ⟨⟨⟨hne, hloc⟩, hdom⟩, _⟩ := h
    refine ⟨cs.takeWhile (· ≠ '@'), dom, ?_, ?_, ?_, ?_⟩
    · rw [← hm, List.takeWhile_append_dropWhile]
    · simpa [List.isEmpty_iff] using hne
    · exact fun c hc => List.all_eq_true.mp hloc c hc
    · exact fun c hc => List.all_eq_true.mp hdom c hc

theorem noRun_cons_cons (t a b : Char) (s : List Char) :
    noRun t (a :: b :: s) = true ↔ ¬(a = t ∧ b = t) ∧ noRun t (b :: s) = true := by
  rw [noRun, Bool.and_eq_true, Bool.not_eq_true', decide_eq_false_iff_not]

theorem noRun_tail (t a : Char) (l : List Char) (h : noRun t (a :: l) = true) :
    noRun t l = true := by
  rcases l with _ | ⟨b, s⟩
  · rfl
  · exact ((noRun_cons_cons t a b s).mp h).2

theorem collapseRuns_head (t : Char) :
    ∀ (l : List Char) (c : Char), ∃ X, collapseRuns t (c :: l) = c :: X := by
  intro l
  induction l with
  | nil => intro c; exact ⟨[], rfl⟩
  | cons b s ih =>
    intro c
    rw [collapseRuns]
    by_cases hc : c = t ∧ b = t
    · rw [if_pos hc]
      obtain ⟨X, hX⟩ := ih b
      rw [hX]
      exact ⟨X, by rw [hc.1, hc.2]⟩
    · rw [if_neg hc]
      exact ⟨collapseRuns t (b :: s), rfl⟩

theorem collapseRuns_noRun (t : Char) :
    ∀ (l : List Char), noRun t (collapseRuns t l) = true
  | [] => rfl
  | [x] => rfl
  | a :: b :: s => by
    rw [collapseRuns]
    split
    · exact collapseRuns_noRun t (b :: s)
    · rename_i hab
      obtain ⟨X, hX⟩ := collapseRuns_head t s b
      rw [hX, noRun_cons_cons]
      refine ⟨hab, ?_⟩
      rw [← hX]
      exact collapseRuns_noRun t (b :: s)
  termination_by l => l.length

theorem noRun_collapseRuns_other (t t' : Char) :
    ∀ (l : List Char), noRun t l = true → noRun t (collapseRuns t' l) = true
  | [], _ => rfl
  | [x], _ => rfl
  | a :: b :: s, h => by
    rw [collapseRuns]
    split
    · exact noRun_collapseRuns_other t t' (b :: s) (noRun_tail t a _ h)
    · obtain ⟨X, hX⟩ := collapseRuns_head t' s b
      rw [hX, noRun_cons_cons]
      refine ⟨((noRun_cons_cons t a b s).mp h).1, ?_⟩
      rw [← hX]
      exact noRun_collapseRuns_other t t' (b :: s) (noRun_tail t a _ h)
  termination_by l => l.length

theorem collapseRuns_eq_self (t : Char) :
    ∀ (l : List Char), noRun t l = true → collapseRuns t l = l
  | [], _ => rfl
  | [x], _ => rfl
  | a :: b :: s, h => by
    rw [collapseRuns, if_neg ((noRun_cons_cons t a b s).mp h).1,
      collapseRuns_eq_self t (b :: s) ((noRun_cons_cons t a b s).mp h).2]
  termination_by l => l.length

theorem noRun_drop (t : Char) (l : List Char) (h : noRun t l = true) :
    ∀ n, noRun t (l.drop n) = true := by
  induction l with
  | nil => intro n; simp [noRun]
  | cons a s ih =>
    intro n
    rcases n with _ | m
    · exact h
    · rw [List.drop_succ_cons]
      exact ih (noRun_tail t a s h) m

theorem noRun_append (t : Char) :
    ∀ (A : List Char), noRun t A = true → ∀ (B : List Char), noRun t B = true →
      ¬(A.getLastD ' ' = t ∧ B.headD ' ' = t) → noRun t (A ++ B) = true
  | [], _, B, hB, _ => by simpa using hB
  | [x], _, B, hB, hj => by
    rcases B with _ | ⟨b, s⟩
    · rfl
    · rw [List.singleton_append, noRun_cons_cons]
      exact ⟨by simpa using hj, hB⟩
  | a :: x :: s, hA, B, hB, hj => by
    have hrec := noRun_append t (x :: s) (noRun_tail t a _ hA) B hB
      (by
        intro hc
        apply hj
        refine ⟨?_, hc.2⟩
        have hc1 := hc.1
        rw [List.getLastD_cons]
        rw [List.getLastD_eq_getLast?] at hc1 ⊢
        rcases hgl : (x :: s).getLast? with _ | v
        · rw [List.getLast?_eq_none_iff] at hgl
          exact absurd hgl (by simp)
        · rw [hgl] at hc1
          simpa using hc1)
    show noRun t (a :: x :: (s ++ B)) = true
    rw [noRun_cons_cons]
    exact ⟨((noRun_cons_cons t a x s).mp hA).1, hrec⟩
  termination_by A => A.length

theorem replaceFirstL_head (p r : List Char) (hr : r ≠ []) (c2 : Char) (s2 : List Char) :
    (replaceFirstL p r (c2 :: s2)).headD ' ' = c2 ∨
      (replaceFirstL p r (c2 :: s2)).headD ' ' = r.headD ' ' := by
  rw [replaceFirstL]
  split
  · right
    rcases r with _ | ⟨rh, rt⟩
    · exact absurd rfl hr
    · rfl
  · left
    rfl

theorem noRun_replaceFirstL (t : Char) (p r : List Char) (hrne : r ≠ [])
    (hrh : ¬ r.headD ' ' = t) (hrl : ¬ r.getLastD ' ' = t) (hr : noRun t r = true) :
    ∀ l : List Char, noRun t l = true → noRun t (replaceFirstL p r l) = true := by
  intro l
  induction l with
  | nil => intro _; rfl
  | cons c s ih =>
    intro h
    rw [replaceFirstL]
    split
    · exact noRun_append t r hr _ (noRun_drop t (c :: s) h _) fun hc => hrl hc.1
    · rcases s with _ | ⟨c2, s2⟩
      · rw [show replaceFirstL p r [] = [] from rfl]
        rfl
      · have hrec := ih (noRun_tail t c _ h)
        rcases hhd : replaceFirstL p r (c2 :: s2) with _ | ⟨x, xs⟩
        · rfl
        · rw [noRun_cons_cons]
          refine ⟨?_, hhd ▸ hrec⟩
          rcases replaceFirstL_head p r hrne c2 s2 with hx | hx <;> rw [hhd] at hx <;>
            simp only [List.headD_cons] at hx
          · subst hx
            exact ((noRun_cons_cons t c x s2).mp h).1
          · intro hct
            rw [hx] at hct
            exact hrh hct.2

theorem split_at_unique :
    ∀ (a : List Char) (b : List Char) (a' b' : List Char),
      a ++ '@' :: b = a' ++ '@' :: b' → '@' ∉ a → '@' ∉ a' → a = a' ∧ b = b' := by
  intro a
  induction a with
  | nil =>
    intro b a' b' h ha ha'
    rcases a' with _ | ⟨x, t⟩
    · simp only [List.nil_append] at h
      exact ⟨rfl, (List.cons.injEq .. |>.mp h).2⟩
    · rw [List.nil_append, List.cons_append] at h
      obtain ⟨h1, _⟩ := List.cons.injEq .. |>.mp h
      exact absurd (h1 ▸ List.mem_cons_self ..) ha'
  | cons c t ih =>
    intro b a' b' h ha ha'
    rcases a' with _ | ⟨x, t'⟩
    · rw [List.nil_append, List.cons_append] at h
      obtain ⟨h1, _⟩ := List.cons.injEq .. |>.mp h
      exact absurd (h1.symm ▸ List.mem_cons_self ..) ha
    · rw [List.cons_append, List.cons_append] at h
      obtain ⟨h1, h2⟩ := List.cons.injEq .. |>.mp h
      obtain ⟨h3, h4⟩ := ih b t' b' h2 (fun hm => ha (List.mem_cons_of_mem _ hm))
        (fun hm => ha' (List.mem_cons_of_mem _ hm))
      exact ⟨by rw [h1, h3], h4⟩

theorem replaceFirstL_decomp (p r : List Char) (hp : p ≠ []) :
    ∀ (l A B : List Char), l = A ++ p ++ B →
      ∃ A2 B2, l = A2 ++ p ++ B2 ∧ replaceFirstL p r l = A2 ++ r ++ B2 := by
  intro l
  induction l with
  | nil =>
    intro A B h
    exfalso
    rcases List.append_eq_nil.mp h.symm with ⟨h1, _⟩
    exact hp (List.append_eq_nil.mp h1).2
  | cons c s ih =>
    intro A B h
    by_cases hpre : p ≠ [] ∧ p.isPrefixOf (c :: s)
    · obtain ⟨tl, htl⟩ := List.isPrefixOf_iff_prefix.mp hpre.2
      refine ⟨[], (c :: s).drop p.length, ?_, ?_⟩
      · rw [List.nil_append, ← htl, List.drop_left]
      · rw [replaceFirstL, if_pos hpre, List.nil_append, ← htl, List.drop_left]
    · rcases A with _ | ⟨a0, A'⟩
      · exfalso
        apply hpre
        refine ⟨hp, List.isPrefixOf_iff_prefix.mpr ⟨B, ?_⟩⟩
        rw [List.nil_append] at h
        exact h.symm
      · rw [List.cons_append, List.cons_append] at h
        obtain ⟨h1, h2⟩ := List.cons.injEq .. |>.mp h
        obtain ⟨A2, B2, hl, hrw⟩ := ih A' B h2
        refine ⟨c :: A2, B2, ?_, ?_⟩
        · rw [List.cons_append, List.cons_append, ← hl]
        · rw [replaceFirstL, if_neg hpre, hrw, List.cons_append, List.cons_append]

theorem count_split_one (loc dom : List Char) (hloc : '@' ∉ loc) (hdom : '@' ∉ dom) :
    (loc ++ '@' :: dom).count '@' = 1 := by
  rw [List.count_append, List.count_cons]
  simp [List.count_eq_zero.mpr hloc, List.count_eq_zero.mpr hdom]

theorem suffix_decomp_unique (l loc dom bad : List Char)
    (hsplit : l = loc ++ '@' :: dom) (hloc : '@' ∉ loc) (hdom : '@' ∉ dom)
    (hbad : '@' ∉ bad) (hsuf : ('@' :: bad).isSuffixOf l) : dom = bad := by
  obtain ⟨pre, hpre⟩ := List.isSuffixOf_iff_suffix.mp hsuf
  have hcount : l.count '@' = 1 := hsplit ▸ count_split_one loc dom hloc hdom
  have hprenot : '@' ∉ pre := by
    intro hm
    rw [← hpre, List.count_append, List.count_cons] at hcount
    have h1 : 1 ≤ pre.count '@' := List.one_le_count_iff.mpr hm
    have h2 : bad.count '@' = 0 := List.count_eq_zero.mpr hbad
    simp [h2] at hcount
    omega
  exact (split_at_unique loc dom pre bad (by rw [← hsplit, hpre]) hloc hprenot).2

theorem emailFixed_find_none (email : String)
    (hok : emailShapeOk (emailFixed email) = true) :
    domainFixes.find?
      (fun pr => ('@' :: pr.1.data).isSuffixOf (emailFixed email)) = none := by
  obtain ⟨loc, dom, hsplit, hlocne, hloc, hdom⟩ := emailShapeOk_decompose _ hok
  have hlocat : '@' ∉ loc := fun hm => (okEmailChar_props _ (hloc _ hm)).2 rfl
  have hdomat : '@' ∉ dom := fun hm => (okEmailChar_props _ (hdom _ hm)).2 rfl
  have hbadat : ∀ pr ∈ domainFixes, '@' ∉ pr.1.data := by decide
  have hgoodat : ∀ pr ∈ domainFixes, '@' ∉ pr.2.data := by decide
  have hgoodbad : ∀ pr ∈ domainFixes, ∀ pr2 ∈ domainFixes, ¬ pr.2.data = pr2.1.data := by
    decide
  rcases hfind2 : domainFixes.find?
      (fun pr => ('@' :: pr.1.data).isSuffixOf (emailFixed email)) with _ | pr2
  · exact hfind2
  · exfalso
    have hsuf2 : ('@' :: pr2.1.data).isSuffixOf (emailFixed email) := by
      simpa using List.find?_some hfind2
    have hpr2 := List.mem_of_find?_eq_some hfind2
    have hdom_bad2 : dom = pr2.1.data :=
      suffix_decomp_unique _ loc dom _ hsplit hlocat hdomat (hbadat pr2 hpr2) hsuf2
    -- analyze the first pass
    rcases hfind : domainFixes.find?
        (fun pr => ('@' :: pr.1.data).isSuffixOf (emailCanon email)) with _ | pr0
    · -- no rewrite happened: emailFixed = emailCanon, so the second find is the first
      have hfe : emailFixed email = emailCanon email := by
        rw [emailFixed, hfind]
      rw [hfe] at hsuf2
      have := List.find?_eq_none.mp hfind pr2 hpr2
      simp [hsuf2] at this
    · -- a rewrite happened: the domain is a good domain, never a bad one
      have hpr0 := List.mem_of_find?_eq_some hfind
      have hsuf0 : ('@' :: pr0.1.data).isSuffixOf (emailCanon email) := by
        simpa using List.find?_some hfind
      obtain ⟨pre0, hpre0⟩ := List.isSuffixOf_iff_suffix.mp hsuf0
      have hfe : emailFixed email =
          replaceFirstL ('@' :: pr0.1.data) ('@' :: pr0.2.data) (emailCanon email) := by
        rw [emailFixed, hfind]
      obtain ⟨A2, B2, hcanon, hrepl⟩ :=
        replaceFirstL_decomp ('@' :: pr0.1.data) ('@' :: pr0.2.data) (by simp)
          (emailCanon email) pre0 []
          (by rw [← hpre0, List.append_nil])
      rw [← hfe] at hrepl
      -- the '@'-count of the fixed value is 1, so A2 and B2 are '@'-free
      have hcount : (emailFixed email).count '@' = 1 :=
        hsplit ▸ count_split_one loc dom hlocat hdomat
      have hA2B2 : '@' ∉ A2 ∧ '@' ∉ B2 := by
        rw [hrepl] at hcount
        rw [List.append_assoc, List.count_append, List.count_append, List.count_cons,
          List.count_eq_zero.mpr (hgoodat pr0 hpr0)] at hcount
        simp at hcount
        constructor <;> rw [← List.count_eq_zero] <;> omega
      -- identify dom with the replaced domain
      have hfix2 : emailFixed email = A2 ++ '@' :: (pr0.2.data ++ B2) := by
        rw [hrepl]
        simp
      have hdomgood : dom = pr0.2.data ++ B2 :=
        (split_at_unique loc dom A2 _ (by rw [← hsplit, ← hfix2]) hlocat hA2B2.1).2
      -- B2 is empty: the canonical value ends with the bad domain
      have hcanct : (emailCanon email).count '@' = 1 := by
        rw [hcanon, List.append_assoc, List.count_append, List.count_append,
          List.count_cons, List.count_eq_zero.mpr (hbadat pr0 hpr0),
          List.count_eq_zero.mpr hA2B2.1, List.count_eq_zero.mpr hA2B2.2]
        simp
      have hcansplit : emailCanon email = A2 ++ '@' :: (pr0.1.data ++ B2) := by
        rw [hcanon]
        simp
      have hprenot : '@' ∉ pre0 := by
        intro hm
        rw [← hpre0, List.count_append, List.count_cons,
          List.count_eq_zero.mpr (hbadat pr0 hpr0)] at hcanct
        have h1 : 1 ≤ pre0.count '@' := List.one_le_count_iff.mpr hm
        simp at hcanct
        omega
      have hbadB2 : pr0.1.data ++ B2 = pr0.1.data := by
        have hnb : '@' ∉ pr0.1.data ++ B2 := by
          intro hm
          rcases List.mem_append.mp hm with hm | hm
          · exact hbadat pr0 hpr0 hm
          · exact hA2B2.2 hm
        exact (split_at_unique A2 _ pre0 _ (by rw [← hcansplit, hpre0]) hA2B2.1 hprenot).2
      have hB2 : B2 = [] := by
        have := congrArg List.length hbadB2
        simp at this
        exact this
      rw [hB2, List.append_nil] at hdomgood
      exact hgoodbad pr0 hpr0 pr2 hpr2 (by rw [← hdomgood, ← hdom_bad2])

theorem emailCanon_noRun_comma (email : String) :
    noRun ',' (emailCanon email) = true := by
  rw [emailCanon]
  exact noRun_collapseRuns_other ',' '.' _ (collapseRuns_noRun ',' _)

theorem emailCanon_noRun_dot (email : String) :
    noRun '.' (emailCanon email) = true := collapseRuns_noRun '.' _

theorem emailFixed_noRun (email : String) :
    noRun ',' (emailFixed email) = true ∧ noRun '.' (emailFixed email) = true := by
  rw [emailFixed]
  rcases hfind : domainFixes.find?
      (fun pr => ('@' :: pr.1.data).isSuffixOf (emailCanon email)) with _ | pr <;>
    rw [hfind]
  · exact ⟨emailCanon_noRun_comma email, emailCanon_noRun_dot email⟩
  · have hpr := List.mem_of_find?_eq_some hfind
    constructor
    · refine noRun_replaceFirstL ',' ('@' :: pr.1.data) ('@' :: pr.2.data)
        (by simp) (by simp) ?_ ?_ _ (emailCanon_noRun_comma email)
      · exact (show ∀ pr ∈ domainFixes,
          ¬ ('@' :: pr.2.data).getLastD ' ' = ',' by decide) pr hpr
      · exact (show ∀ pr ∈ domainFixes,
          noRun ',' ('@' :: pr.2.data) = true by decide) pr hpr
    · refine noRun_replaceFirstL '.' ('@' :: pr.1.data) ('@' :: pr.2.data)
        (by simp) (by simp) ?_ ?_ _ (emailCanon_noRun_dot email)
      · exact (show ∀ pr ∈ domainFixes,
          ¬ ('@' :: pr.2.data).getLastD ' ' = '.' by decide) pr hpr
      · exact (show ∀ pr ∈ domainFixes,
          noRun '.' ('@' :: pr.2.data) = true by decide) pr hpr

theorem emailCanon_of_fixed (email : String)
    (hok : emailShapeOk (emailFixed email) = true) :
    emailCanon ⟨emailFixed email⟩ = emailFixed email := by
  obtain ⟨loc, dom, hsplit, hlocne, hloc, hdom⟩ := emailShapeOk_decompose _ hok
  have hws : ∀ c ∈ emailFixed email, isJsSpace c = false := by
    intro c hc
    rw [hsplit] at hc
    rcases List.mem_append.mp hc with hc | hc
    · exact (okEmailChar_props c (hloc c hc)).1
    · rcases List.mem_cons.mp hc with rfl | hc
      · decide
      · exact (okEmailChar_props c (hdom c hc)).1
  rw [emailCanon, data_mk,
    map_eq_self_of _ (fun c hc => lowered_emailFixed email c hc),
    jsTrimL_eq_self_of_all _ hws,
    List.filter_eq_self.mpr (fun c hc => by simp [hws c hc]),
    collapseRuns_eq_self ',' _ (emailFixed_noRun email).1,
    collapseRuns_eq_self '.' _ (emailFixed_noRun email).2]

theorem fixEmail_idem (s : String) : fixEmail (fixEmail s) = fixEmail s := by
  by_cases h : s = ""
  · subst h; rfl
  · rw [fixEmail_eq s h]
    by_cases hok : emailShapeOk (emailFixed s) = true
    · rw [if_pos hok]
      have hne2 : ¬ (⟨emailFixed s⟩ : String) = "" := by
        obtain ⟨loc, dom, hsplit, hlocne, _, _⟩ := emailShapeOk_decompose _ hok
        intro he
        have hd := congrArg String.data he
        rw [data_mk, hsplit] at hd
        simp at hd
      rw [fixEmail_eq _ hne2]
      have hfixed2 : emailFixed ⟨emailFixed s⟩ = emailFixed s := by
        rw [emailFixed, emailCanon_of_fixed s hok, emailFixed_find_none s hok]
      rw [hfixed2, if_pos hok]
    · rw [if_neg hok, fixEmail_eq s h, if_neg hok]

/-- C8 (amended). Every cell transform in the library is a pure total
function from string to string — each is a total function of its argument
here, so none can raise — and each returns its input unchanged on the empty
string.  Four of the eight are idempotent on every input: control-character
stripping, phone formatting, number-format repair and email repair.  Case
normalization is idempotent on ASCII data (cell and column name), where the
ASCII case maps coincide with the source's `toUpperCase`/`toLowerCase`; on
non-ASCII data the length-changing JS special casings (`ß` → `SS` → `Ss`)
break idempotence, so it is only asserted on ASCII.  Date normalization
re-parses its own ISO output through the host `Date` with local-time
accessors, so whether it is a fixpoint depends on the host timezone and is
not asserted here.  HTML stripping and encoding repair are NOT idempotent:
entity decoding and mojibake repair can expose fresh matches for a second
pass, as the counterexample shows. -/
theorem transforms_totality_and_idempotence :
    (fixEncodingIssues "" = "" ∧ fixEmail "" = "" ∧ standardizePhoneFn "" = "" ∧
      standardizeDateFn "" = "" ∧ (∀ col, normalizeCaseFn "" col = "") ∧
      removeHtmlTagsFn "" = "" ∧ fixNumberFormat "" = "" ∧
      removeSpecialCharsFn "" = "") ∧
    (∀ s, removeSpecialCharsFn (removeSpecialCharsFn s) = removeSpecialCharsFn s) ∧
    (∀ s, standardizePhoneFn (standardizePhoneFn s) = standardizePhoneFn s) ∧
    (∀ s, fixNumberFormat (fixNumberFormat s) = fixNumberFormat s) ∧
    (∀ s, fixEmail (fixEmail s) = fixEmail s) ∧
    (∀ s col, isAsciiStr s = true → isAsciiStr col = true →
      normalizeCaseFn (normalizeCaseFn s col) col = normalizeCaseFn s col) := by
  refine ⟨⟨rfl, rfl, rfl, rfl, fun col => ?_, rfl, rfl, rfl⟩,
    removeSpecialCharsFn_idem, standardizePhoneFn_idem, fixNumberFormat_idem,
    fixEmail_idem, fun s col _ _ => normalizeCaseFn_idem s col⟩
  rw [normalizeCaseFn, if_pos rfl]

/-- Witness for C8 (amended): the ASCII cell "jane doe" in the ASCII column
"name" is a fixpoint of a second case normalization. -/
theorem transforms_totality_and_idempotence_witness :
    isAsciiStr "jane doe" = true ∧ isAsciiStr "name" = true ∧
      normalizeCaseFn (normalizeCaseFn "jane doe" "name") "name" =
        normalizeCaseFn "jane doe" "name" :=
  ⟨by decide, by decide,
    transforms_totality_and_idempotence.2.2.2.2.2 "jane doe" "name"
      (by decide) (by decide)⟩

end DataScrub
